import Mathlib

/-!
# Verification of `nvim_switcher` (src/main.rs)

Shallow embedding of the Rust program `nvim_switcher`, a local version
manager for neovim.  The filesystem is modelled as an association list from
absolute paths (lists of components) to nodes (regular file, directory,
symlink).  Each Rust function is translated into a function in a small
state monad `M` over the filesystem; the environment (env vars, the network,
the behaviour of the probed executable, the contents of archives) is a
read-only `Env`.  Every observable side effect additionally records an
`Event`, so that claims of the form "performs no download / no publish"
can be stated about the event trace.

Modelling notes (divergences from real OS semantics, none of which affect
the claims settled here):
* `fsPathExists` models `Path::exists`, following a symlink one level
  (a dangling symlink does not "exist"); chains of symlinks pointing at
  symlinks are not followed further.
* `fsCreateDirAll` models `fs::create_dir_all`: it creates every missing
  ancestor as a directory and fails if a non-directory entry occupies one
  of the positions.
* `fs::remove_file` succeeds on regular files and symlinks and fails on
  directories, as on Linux.
* Archive extraction (`tar`/`flate2`) is modelled by the oracle
  `Env.archives`, mapping the bytes of the archive file to the tree of
  entries it unpacks to (`none` = unreadable/corrupt archive).  Entries
  with an empty relative path are ignored (a tar archive cannot carry its
  own root as an entry).
* Invoking `nvim --version` (`Command::output`) is modelled by the oracle
  `Env.runVersion`.
* `.unwrap()` on a failing operation is modelled by the `Res.panic` result.
-/

/-- A path: the list of components of an absolute path. -/
abbrev FsPath := List String

/-- A filesystem node. -/
inductive Node where
  | file (content : List Nat)
  | dir
  | symlink (target : FsPath)
deriving DecidableEq

/-- The filesystem: a finite map from paths to nodes, as an association
list.  `fsSet` keeps keys unique. -/
abbrev FS := List (FsPath × Node)

/-- First entry with the given key, if any. -/
def fsLookup : FS → FsPath → Option Node
  | [], _ => none
  | (q, n) :: rest, p => if q = p then some n else fsLookup rest p

/-- Remove every entry with the given key. -/
def fsDel : FS → FsPath → FS
  | [], _ => []
  | (q, n) :: rest, p => if q = p then fsDel rest p else (q, n) :: fsDel rest p

/-- Insert or replace the entry at a key. -/
def fsSet (fs : FS) (p : FsPath) (n : Node) : FS :=
  (p, n) :: fsDel fs p

/-- `isPrefixL p q` is true when `p` is a (not necessarily strict) prefix
of `q`: the filesystem object at `q` lives inside the directory `p`. -/
def isPrefixL : FsPath → FsPath → Bool
  | [], _ => true
  | a :: p, q =>
    match q with
    | [] => false
    | b :: q => if a = b then isPrefixL p q else false

/-- Remove an entry and everything below it (`fs::remove_dir_all`). -/
def fsDelTree : FS → FsPath → FS
  | [], _ => []
  | (q, n) :: rest, p => if isPrefixL p q then fsDelTree rest p else (q, n) :: fsDelTree rest p

/-- `childNameOf p q = some n` iff `q = p ++ [n]`. -/
def childNameOf : FsPath → FsPath → Option String
  | [], [n] => some n
  | a :: p, b :: q => if a = b then childNameOf p q else none
  | _, _ => none

/-- The names of the immediate children of a directory
(`fs::read_dir`, in the order the entries appear in the map). -/
def fsReadDir : FS → FsPath → List String
  | [], _ => []
  | (q, _) :: rest, p =>
    match childNameOf p q with
    | some n => n :: fsReadDir rest p
    | none => fsReadDir rest p

/-- `Path::exists`: follows a symlink (one level); a dangling symlink
does not count as existing. -/
def fsPathExists (fs : FS) (p : FsPath) : Bool :=
  match fsLookup fs p with
  | some (Node.symlink t) => (fsLookup fs t).isSome
  | some _ => true
  | none => false

/-- `fs::create_dir_all`, walking the components of the path and creating
each missing prefix as a directory.  Returns the updated filesystem and
`true`, or the partially updated filesystem and `false` if a non-directory
entry occupies one of the prefixes. -/
def fsCreateDirAllAux : FS → FsPath → List String → FS × Bool
  | fs, _, [] => (fs, true)
  | fs, base, c :: rest =>
    let cur := base ++ [c]
    match fsLookup fs cur with
    | none => fsCreateDirAllAux (fsSet fs cur Node.dir) cur rest
    | some Node.dir => fsCreateDirAllAux fs cur rest
    | some _ => (fs, false)

def fsCreateDirAll (fs : FS) (p : FsPath) : FS × Bool :=
  fsCreateDirAllAux fs [] p

/-- Unpack a list of archive entries (relative path, node) below `out`.
Entries with an empty relative path are skipped. -/
def insertTree (out : FsPath) : FS → List (FsPath × Node) → FS
  | fs, [] => fs
  | fs, (r, n) :: rest =>
    if r = [] then insertTree out fs rest
    else insertTree out (fsSet fs (out ++ r) n) rest

/-- Result of one program function: `Ok`, `Err` (a `Box<dyn Error>` whose
message we keep), or a Rust panic (from `.unwrap()`). -/
inductive Res (α : Type) where
  | ok (a : α)
  | err (msg : String)
  | panic
deriving DecidableEq

/-- Observable side effects, recorded as a trace. -/
inductive Event where
  | print (s : String)
  | fetch (url : String)
  | createFile (p : FsPath)
  | removeFile (p : FsPath)
  | removeDirAll (p : FsPath)
  | mkdirAll (p : FsPath)
  | extractEv (archive out : FsPath)
  | runExe (p : FsPath)
  | mklink (link target : FsPath)
deriving DecidableEq

/-- Outcome of invoking the installed `nvim --version`
(`Command::output` plus `String::from_utf8`). -/
inductive ProcResult where
  | spawnFail
  | nonUtf8
  | output (s : String)

/-- Body of an HTTP response: delivered in full, or failing partway
through `copy_to` after `b` bytes were written. -/
inductive NetBody where
  | full (b : List Nat)
  | bodyFail (b : List Nat)

/-- Outcome of `reqwest::blocking::get`. -/
inductive NetResult where
  | connFail
  | resp (success : Bool) (body : NetBody)

/-- The read-only environment of one invocation: environment variables,
the network, the probed executable, the archive decoder. -/
structure Env where
  xdgCacheHome : Option FsPath
  home : FsPath
  net : String → NetResult
  runVersion : ProcResult
  archives : List Nat → Option (List (FsPath × Node))

/-- The monad of the embedding: reader over `Env`, state over `FS`,
an event trace, and a `Res` result. -/
def M (α : Type) : Type := Env → FS → Res α × FS × List Event

def mret {α : Type} (a : α) : M α := fun _ fs => (Res.ok a, fs, [])

def merr {α : Type} (msg : String) : M α := fun _ fs => (Res.err msg, fs, [])

def M.bind {α β : Type} (m : M α) (k : α → M β) : M β := fun env fs =>
  match m env fs with
  | (Res.ok a, fs1, ev1) =>
    let r := k a env fs1
    (r.1, r.2.1, ev1 ++ r.2.2)
  | (Res.err e, fs1, ev1) => (Res.err e, fs1, ev1)
  | (Res.panic, fs1, ev1) => (Res.panic, fs1, ev1)

/-- `match m { Ok(a) => Some(a), Err(_) => None }`: run `m`, converting an
error into `none` (used for `is_err()` / `if let Err(_)` patterns). -/
def attempt {α : Type} (m : M α) : M (Option α) := fun env fs =>
  match m env fs with
  | (Res.ok a, fs1, ev1) => (Res.ok (some a), fs1, ev1)
  | (Res.err _, fs1, ev1) => (Res.ok none, fs1, ev1)
  | (Res.panic, fs1, ev1) => (Res.panic, fs1, ev1)

def mprint (s : String) : M Unit := fun _ fs => (Res.ok (), fs, [Event.print s])

/-- `path.exists()` as an action. -/
def existsM (p : FsPath) : M Bool := fun _ fs => (Res.ok (fsPathExists fs p), fs, [])

/-- `fs::remove_file`: removes a file or a symlink, fails on a directory
or a missing entry. -/
def removeFileM (p : FsPath) : M Unit := fun _ fs =>
  match fsLookup fs p with
  | some Node.dir => (Res.err "remove_file: is a directory", fs, [])
  | some _ => (Res.ok (), fsDel fs p, [Event.removeFile p])
  | none => (Res.err "remove_file: not found", fs, [])

/-- `fs::remove_dir_all`. -/
def removeDirAllM (p : FsPath) : M Unit := fun _ fs =>
  match fsLookup fs p with
  | some Node.dir => (Res.ok (), fsDelTree fs p, [Event.removeDirAll p])
  | _ => (Res.err "remove_dir_all error", fs, [])

/-- `os::unix::fs::symlink(target, link)`: fails if anything (even a
dangling symlink) already occupies `link`. -/
def symlinkM (target link : FsPath) : M Unit := fun _ fs =>
  match fsLookup fs link with
  | some _ => (Res.err "symlink: file exists", fs, [])
  | none => (Res.ok (), fsSet fs link (Node.symlink target), [Event.mklink link target])

/-- `if !p.exists() { fs::create_dir_all(p) }`; on creation failure the
result is `panic` when the source `.unwrap()`s and `err` when it uses `?`. -/
def ensureDirM (p : FsPath) (panicOnErr : Bool) : M Unit := fun _ fs =>
  if fsPathExists fs p then (Res.ok (), fs, [])
  else
    match fsCreateDirAll fs p with
    | (fs1, true) => (Res.ok (), fs1, [Event.mkdirAll p])
    | (fs1, false) =>
      if panicOnErr then (Res.panic, fs1, []) else (Res.err "create_dir_all error", fs1, [])

def getHome : M FsPath := fun env fs => (Res.ok env.home, fs, [])

/-! ## The program (translated from src/main.rs) -/

/-- main.rs line 39: the base url for neovim downloads. -/
def GITHUB_BASE_URL : String := "https://github.com/neovim/neovim/releases/download/"

/-- The directory computed by `cache_dir` (main.rs lines 267-277):
`$XDG_CACHE_HOME` falling back to `$HOME/.cache`, plus `/nvim_switcher`. -/
def cacheDirPathPure (env : Env) : FsPath :=
  (match env.xdgCacheHome with
   | some p => p
   | none => env.home ++ [".cache"]) ++ ["nvim_switcher"]

/-- `fn cache_dir` (main.rs lines 267-286): resolve the cache directory
and create it if absent (`.unwrap()` on failure). -/
def cache_dir : M FsPath := fun env =>
  M.bind (ensureDirM (cacheDirPathPure env) true)
    (fun _ => mret (cacheDirPathPure env)) env

/-- `fn path` (main.rs lines 255-264): the artifact path for a version. -/
def path (version : String) : M FsPath :=
  M.bind cache_dir (fun c => mret (c ++ ["nvim-" ++ version ++ ".tar.gz"]))

/-- The path `path version` returns, as a pure function of the environment. -/
def artifactPathPure (env : Env) (version : String) : FsPath :=
  cacheDirPathPure env ++ ["nvim-" ++ version ++ ".tar.gz"]

/-- `fn output_dir` (main.rs lines 289-300): `<cache>/current`, created
if absent (`.unwrap()` on failure). -/
def output_dir : M FsPath :=
  M.bind cache_dir (fun c =>
    M.bind (ensureDirM (c ++ ["current"]) true) (fun _ => mret (c ++ ["current"])))

/-- The body of `fn download` after the artifact path has been resolved
(main.rs lines 82-124). -/
def downloadBody (version : String) (p : FsPath) : M FsPath := fun env fs =>
    if fsPathExists fs p then
      (Res.ok p, fs, [Event.print ("Version " ++ version ++ " already downloaded")])
    else
      let url := GITHUB_BASE_URL ++ version ++ "/nvim-linux64.tar.gz"
      let ev0 := [Event.print ("Pulling version " ++ version ++ " of nvim from " ++ url),
                  Event.fetch url]
      match env.net url with
      | NetResult.connFail => (Res.err "Failed to download version", fs, ev0)
      | NetResult.resp success body =>
        if success then
          -- File::create
          match fsLookup fs p with
          | some Node.dir => (Res.err "Failed to store version", fs, ev0)
          | _ =>
            let fs1 := fsSet fs p (Node.file [])
            let ev1 := ev0 ++ [Event.createFile p]
            match body with
            | NetBody.full b =>
              (Res.ok p, fsSet fs1 p (Node.file b),
               ev1 ++ [Event.print ("Downloaded version " ++ version ++ " of nvim")])
            | NetBody.bodyFail b =>
              -- write fails partway: remove the file (result ignored)
              (Res.err "Failed to store version", fsDel (fsSet fs1 p (Node.file b)) p,
               ev1 ++ [Event.removeFile p])
        else (Res.err "Failed to download version", fs, ev0)

/-- `fn download` (main.rs lines 77-125). -/
def download (version : String) : M FsPath :=
  M.bind (path version) (downloadBody version)

/-- `fn extract` (main.rs lines 220-234): open the archive file and unpack
its entries into `out` (the decoding given by `Env.archives`). -/
def extract (file : FsPath) (out : FsPath) : M Unit := fun env fs =>
  match fsLookup fs file with
  | some (Node.file b) =>
    match env.archives b with
    | some entries => (Res.ok (), insertTree out fs entries, [Event.extractEv file out])
    | none => (Res.err "extract: unpack error", fs, [])
  | _ => (Res.err "extract: open error", fs, [])

/-- `fs::read_dir` returning the list of entry names. -/
def readDirM (p : FsPath) : M (List String) := fun _ fs =>
  match fsLookup fs p with
  | some Node.dir => (Res.ok (fsReadDir fs p), fs, [])
  | _ => (Res.err "read_dir error", fs, [])

/-- One iteration of the loop in `fn symlinks` (main.rs lines 193-215):
ensure the output directory, remove a same-named existing entry, create
the symlink. -/
def symlinkStep (original output : FsPath) (name : String) : M Unit :=
  M.bind (ensureDirM output false) (fun _ =>
    M.bind (existsM (output ++ [name])) (fun lex =>
      M.bind (if lex then removeFileM (output ++ [name]) else mret ()) (fun _ =>
        symlinkM (original ++ [name]) (output ++ [name]))))

def symlinksLoop (original output : FsPath) : List String → M Unit
  | [] => mret ()
  | n :: rest => M.bind (symlinkStep original output n) (fun _ => symlinksLoop original output rest)

/-- `fn symlinks` (main.rs lines 188-218). -/
def symlinks (original output : FsPath) : M Unit :=
  M.bind (readDirM original) (fun names => symlinksLoop original output names)

/-- The body of `fn purge` after the artifact path has been resolved
(main.rs lines 241-251). -/
def purgeBody (version : String) (p : FsPath) : M Unit := fun _env fs =>
  if fsPathExists fs p then
    match fsLookup fs p with
    | some Node.dir => (Res.err ("Failed to remove version: " ++ version), fs, [])
    | some _ => (Res.ok (), fsDel fs p, [Event.removeFile p])
    | none => (Res.err ("Failed to remove version: " ++ version), fs, [])
  else (Res.err ("Version " ++ version ++ " not found"), fs, [])

/-- `fn purge` (main.rs lines 237-252). -/
def purge (version : String) : M Unit :=
  M.bind (path version) (purgeBody version)

/-- Rust `str::lines` on the captured stdout: an empty string yields no
lines; a single trailing newline does not yield a trailing empty line. -/
def rustLines (s : String) : List String :=
  if s.isEmpty then []
  else (if s.back = '\n' then s.dropRight 1 else s).splitOn "\n"

/-- Rust `str::split_whitespace`. -/
def splitWs (s : String) : List String :=
  (s.split (fun c => c.isWhitespace)).filter (fun t => !t.isEmpty)

/-- The probe part of `fn current` (main.rs lines 307-332), given the
resolved output directory.  Note the `.unwrap()` on
`output.lines().next()`, which panics when stdout is empty. -/
def nvimPathOf (out : FsPath) : FsPath := out ++ ["nvim-linux64", "bin", "nvim"]

def probe (out : FsPath) : M String := fun env fs =>
  if fsPathExists fs (nvimPathOf out) then
    match env.runVersion with
    | ProcResult.spawnFail =>
      (Res.err "process invocation error", fs, [Event.runExe (nvimPathOf out)])
    | ProcResult.nonUtf8 =>
      (Res.err "invalid utf-8 in output", fs, [Event.runExe (nvimPathOf out)])
    | ProcResult.output s =>
      match rustLines s with
      | [] => (Res.panic, fs, [Event.runExe (nvimPathOf out)])
      | l :: _ =>
        match (splitWs l).get? 1 with
        | some v => (Res.ok v, fs, [Event.runExe (nvimPathOf out)])
        | none => (Res.err "Failed to get version", fs, [Event.runExe (nvimPathOf out)])
  else (Res.ok "None", fs, [])

/-- `fn current` (main.rs lines 303-333). -/
def current : M String :=
  M.bind output_dir probe

/-- The loop over `share` entries in `fn switch` (main.rs lines 175-180). -/
def shareLoop (dir link : FsPath) : List String → M Unit
  | [] => mret ()
  | n :: rest =>
    M.bind (symlinks (dir ++ ["share", n]) (link ++ ["share", n]))
      (fun _ => shareLoop dir link rest)

/-- `if download(version).is_err() { return Err(...) }` (main.rs lines 142-147). -/
def ensureDownloaded (version : String) : M Unit :=
  M.bind (attempt (download version)) (fun r =>
    match r with
    | some _ => mret ()
    | none => merr ("Failed to download version " ++ version))

/-- `if let Err(_) = fs::remove_dir_all(&output_dir()) { return Err(...) }`
(main.rs lines 149-152), given the already-resolved output directory. -/
def checkedRemove (out : FsPath) : M Unit :=
  M.bind (attempt (removeDirAllM out)) (fun rrem =>
    match rrem with
    | some _ => mret ()
    | none => merr "Failed to remove current version")

/-- `if let Err(_) = extract(&path, &output_dir()) { return Err(...) }`
(main.rs lines 154-157), given the already-resolved output directory. -/
def checkedExtract (p out : FsPath) : M Unit :=
  M.bind (attempt (extract p out)) (fun rex =>
    match rex with
    | some _ => mret ()
    | none => merr "Failed to extract version")

/-- The publish phase of `fn switch` (main.rs lines 168-184): symlink the
`bin` and `lib` subtrees and each entry of `share`, then report success. -/
def publishAll (version : String) (dir link : FsPath) : M Unit :=
  M.bind (symlinks (dir ++ ["bin"]) (link ++ ["bin"])) (fun _ =>
  M.bind (symlinks (dir ++ ["lib"]) (link ++ ["lib"])) (fun _ =>
  M.bind (readDirM (dir ++ ["share"])) (fun names =>
  M.bind (shareLoop dir link names) (fun _ =>
  mprint ("Switched to version " ++ version)))))

/-- The non-no-op branch of `fn switch` (main.rs lines 136-184). -/
def switchMain (version : String) : M Unit :=
  M.bind (mprint ("Switching to version " ++ version)) (fun _ =>
  M.bind (path version) (fun p =>
  M.bind (existsM p) (fun pex =>
  M.bind (if pex then mret () else ensureDownloaded version) (fun _ =>
  M.bind output_dir (fun out1 =>
  M.bind (checkedRemove out1) (fun _ =>
  M.bind output_dir (fun out2 =>
  M.bind (checkedExtract p out2) (fun _ =>
  M.bind getHome (fun home =>
  M.bind output_dir (fun out3 =>
  publishAll version (out3 ++ ["nvim-linux64"]) (home ++ [".local"])))))))))))

/-- `fn switch` (main.rs lines 128-185). -/
def switch (version : String) : M Unit :=
  M.bind current (fun cur =>
    if version = cur then mprint ("Already using version " ++ version)
    else switchMain version)

/-- Number of network fetches in a trace. -/
def countFetch (ev : List Event) : Nat :=
  (ev.filter (fun e => match e with | Event.fetch _ => true | _ => false)).length

/-! ## Concrete environments and states used by witnesses and counterexamples -/

/-- A network where every request fails to connect. -/
def netNone : String → NetResult := fun _ => NetResult.connFail

/-- A network delivering every archive in full as the bytes `[7]`. -/
def netSeven : String → NetResult := fun _ => NetResult.resp true (NetBody.full [7])

/-- A network whose response body fails partway after the bytes `[1]`. -/
def netBroken : String → NetResult := fun _ => NetResult.resp true (NetBody.bodyFail [1])

/-- An archive decoder that cannot decode anything. -/
def archNone : List Nat → Option (List (FsPath × Node)) := fun _ => none

/-- Baseline environment: `XDG_CACHE_HOME=/cache`, `HOME=/home`, dead
network, probe output empty. -/
def env0 : Env :=
  { xdgCacheHome := some ["cache"], home := ["home"], net := netNone,
    runVersion := ProcResult.output "", archives := archNone }

/-- State for the probe panic: the active layout and executable are in
place and the probe produces empty stdout. -/
def fs3 : FS :=
  [(["cache"], Node.dir), (["cache", "nvim_switcher"], Node.dir),
   (["cache", "nvim_switcher", "current"], Node.dir),
   (["cache", "nvim_switcher", "current", "nvim-linux64"], Node.dir),
   (["cache", "nvim_switcher", "current", "nvim-linux64", "bin"], Node.dir),
   (["cache", "nvim_switcher", "current", "nvim-linux64", "bin", "nvim"], Node.file [0])]

/-- State for the publish counterexample: the source directory `/s` has an
entry `a`, and a same-named directory sits at the output location `/o/a`. -/
def fs1 : FS :=
  [(["s"], Node.dir), (["s", "a"], Node.file [1]),
   (["o"], Node.dir), (["o", "a"], Node.dir)]

/-- Like `fs1`, but with a regular file (not a directory) at the output
location `/o/a`. -/
def fs1b : FS :=
  [(["s"], Node.dir), (["s", "a"], Node.file [1]),
   (["o"], Node.dir), (["o", "a"], Node.file [5])]

/-- The tree unpacked from the archive bytes `[7]`. -/
def tree7 : List (FsPath × Node) :=
  [(["nvim-linux64"], Node.dir),
   (["nvim-linux64", "bin"], Node.dir),
   (["nvim-linux64", "bin", "x"], Node.file [1]),
   (["nvim-linux64", "lib"], Node.dir),
   (["nvim-linux64", "share"], Node.dir),
   (["nvim-linux64", "share", "e"], Node.dir),
   (["nvim-linux64", "share", "e", "f"], Node.file [2])]

/-- Environment for full-switch scenarios: archives `[7]` decode to
`tree7`, whose `bin` contains `x` (but not `y`). -/
def env7 : Env :=
  { xdgCacheHome := some ["cache"], home := ["home"], net := netNone,
    runVersion := ProcResult.output "",
    archives := fun b => if b = [7] then some tree7 else none }

/-- State for full-switch scenarios: artifact `v1` cached, no version
active, and the publish bin already contains files `x` and `y`. -/
def fs7 : FS :=
  [(["cache"], Node.dir), (["cache", "nvim_switcher"], Node.dir),
   (["cache", "nvim_switcher", "nvim-v1.tar.gz"], Node.file [7]),
   (["cache", "nvim_switcher", "current"], Node.dir),
   (["home"], Node.dir), (["home", ".local"], Node.dir),
   (["home", ".local", "bin"], Node.dir),
   (["home", ".local", "bin", "x"], Node.file [9]),
   (["home", ".local", "bin", "y"], Node.file [10])]

/-- State with the cache root present and the artifact for `v1` cached. -/
def fs5 : FS :=
  [(["cache"], Node.dir), (["cache", "nvim_switcher"], Node.dir),
   (["cache", "nvim_switcher", "nvim-v1.tar.gz"], Node.file [7])]

/-- State with the cache root present and no artifacts. -/
def fs4 : FS :=
  [(["cache"], Node.dir), (["cache", "nvim_switcher"], Node.dir)]

/-- State with a regular FILE at the cache root `<cache>/nvim_switcher`:
`Path::exists` is true, so `cache_dir` never calls `create_dir_all`. -/
def fsFileRoot : FS :=
  [(["cache"], Node.dir), (["cache", "nvim_switcher"], Node.file [0])]

/-- State with a regular FILE at the active directory
`<cache>/nvim_switcher/current`: `Path::exists` is true, so `output_dir`
never calls `create_dir_all`. -/
def fsFileCur : FS :=
  [(["cache"], Node.dir), (["cache", "nvim_switcher"], Node.dir),
   (["cache", "nvim_switcher", "current"], Node.file [0])]

/-! ## Basic lemmas about the filesystem model -/

theorem fsLookup_fsDel_self (fs : FS) (p : FsPath) : fsLookup (fsDel fs p) p = none := by
  induction fs with
  | nil => rfl
  | cons e rest ih =>
    obtain ⟨q, n⟩ := e
    by_cases h : q = p
    · simpa [fsDel, h] using ih
    · simpa [fsDel, fsLookup, h] using ih

theorem fsLookup_fsDel_ne {q p : FsPath} (fs : FS) (h : q ≠ p) :
    fsLookup (fsDel fs p) q = fsLookup fs q := by
  have hpq : p ≠ q := fun e => h e.symm
  induction fs with
  | nil => rfl
  | cons e rest ih =>
    obtain ⟨k, n⟩ := e
    by_cases hk : k = p
    · subst hk
      simp [fsDel, fsLookup, hpq, ih]
    · by_cases hq : k = q
      · simp [fsDel, fsLookup, hk, hq, h]
      · simp [fsDel, fsLookup, hk, hq, ih]

theorem fsLookup_fsSet_self (fs : FS) (p : FsPath) (n : Node) :
    fsLookup (fsSet fs p n) p = some n := by
  simp [fsSet, fsLookup]

theorem fsLookup_fsSet_ne {q p : FsPath} (fs : FS) (n : Node) (h : q ≠ p) :
    fsLookup (fsSet fs p n) q = fsLookup fs q := by
  have hp : p ≠ q := fun e => h e.symm
  simp [fsSet, fsLookup, hp, fsLookup_fsDel_ne fs h]

theorem isPrefixL_append (p r : FsPath) : isPrefixL p (p ++ r) = true := by
  induction p with
  | nil => rfl
  | cons a p ih => simpa [isPrefixL] using ih

theorem isPrefixL_refl (p : FsPath) : isPrefixL p p = true := by
  simpa using isPrefixL_append p []

theorem isPrefixL_length {p q : FsPath} (h : isPrefixL p q = true) : p.length ≤ q.length := by
  induction p generalizing q with
  | nil => simp
  | cons a p ih =>
    cases q with
    | nil => simp [isPrefixL] at h
    | cons b q =>
      by_cases hab : a = b
      · simp only [isPrefixL, if_pos hab] at h
        simpa using ih h
      · simp [isPrefixL, hab] at h

theorem isPrefixL_false_of_length {p q : FsPath} (h : q.length < p.length) :
    isPrefixL p q = false := by
  cases hh : isPrefixL p q
  · rfl
  · exact absurd (isPrefixL_length hh) (by omega)

theorem ne_append_of_not_prefix {p q : FsPath} (h : isPrefixL p q = false) (r : FsPath) :
    q ≠ p ++ r := by
  intro e
  rw [e, isPrefixL_append] at h
  cases h

theorem isPrefixL_append_left (x p q : FsPath) :
    isPrefixL (x ++ p) (x ++ q) = isPrefixL p q := by
  induction x with
  | nil => rfl
  | cons a x ih => simpa [isPrefixL] using ih

theorem isPrefixL_cons (a b : String) (p q : FsPath) :
    isPrefixL (a :: p) (b :: q) = if a = b then isPrefixL p q else false := rfl

theorem isPrefixL_extend {q p : FsPath} (h : isPrefixL q p = true) (r : FsPath) :
    isPrefixL q (p ++ r) = true := by
  induction q generalizing p with
  | nil => rfl
  | cons a q ih =>
    cases p with
    | nil => simp [isPrefixL] at h
    | cons b p =>
      rw [List.cons_append, isPrefixL_cons]
      rw [isPrefixL_cons] at h
      by_cases hab : a = b
      · rw [if_pos hab] at h ⊢
        exact ih h
      · rw [if_neg hab] at h
        cases h

theorem fsLookup_fsDelTree (fs : FS) (p q : FsPath) :
    fsLookup (fsDelTree fs p) q =
      if isPrefixL p q = true then none else fsLookup fs q := by
  induction fs with
  | nil => simp [fsDelTree, fsLookup]
  | cons e rest ih =>
    obtain ⟨k, n⟩ := e
    by_cases hk : isPrefixL p k = true
    · by_cases hq : k = q
      · subst hq
        simp [fsDelTree, hk, ih]
      · simp [fsDelTree, fsLookup, hk, hq, ih]
    · by_cases hq : k = q
      · subst hq
        simp [fsDelTree, fsLookup, hk, ih]
      · simp [fsDelTree, fsLookup, hk, hq, ih]

theorem childNameOf_append (p : FsPath) (n : String) :
    childNameOf p (p ++ [n]) = some n := by
  induction p with
  | nil => rfl
  | cons a p ih => simpa [childNameOf] using ih

theorem eq_of_childNameOf {p q : FsPath} {n : String} (h : childNameOf p q = some n) :
    q = p ++ [n] := by
  induction p generalizing q with
  | nil =>
    match q with
    | [] => simp [childNameOf] at h
    | [m] => simp [childNameOf] at h; simp [h]
    | a :: b :: rest => simp [childNameOf] at h
  | cons a p ih =>
    match q with
    | [] => simp [childNameOf] at h
    | b :: q =>
      by_cases hab : a = b
      · subst hab
        simp only [childNameOf, if_pos rfl] at h
        simp [ih h]
      · simp [childNameOf, hab] at h

theorem mem_fsReadDir_iff (fs : FS) (p : FsPath) (n : String) :
    n ∈ fsReadDir fs p ↔ (fsLookup fs (p ++ [n])).isSome := by
  induction fs with
  | nil => simp [fsReadDir, fsLookup]
  | cons e rest ih =>
    obtain ⟨k, nd⟩ := e
    cases hcn : childNameOf p k with
    | some m =>
      have hk : k = p ++ [m] := eq_of_childNameOf hcn
      subst hk
      by_cases hnm : n = m
      · subst hnm
        simp [fsReadDir, hcn, fsLookup]
      · have hne : p ++ [m] ≠ p ++ [n] := by
          intro hh
          have : m = n := by
            have := List.append_cancel_left hh
            injection this
          exact hnm this.symm
        simp only [fsReadDir, hcn, fsLookup, List.mem_cons]
        rw [if_neg hne]
        constructor
        · rintro (h | h)
          · exact absurd h hnm
          · exact ih.1 h
        · intro h
          exact Or.inr (ih.2 h)
    | none =>
      have : k ≠ p ++ [n] := by
        intro e
        rw [e, childNameOf_append] at hcn
        cases hcn
      simp only [fsReadDir, hcn, fsLookup]
      rw [if_neg this]
      exact ih

/-! ## Monad lemmas -/

theorem M.bind_ok {α β : Type} {m : M α} {k : α → M β} {env : Env} {fs fs1 : FS}
    {a : α} {ev1 : List Event} (h : m env fs = (Res.ok a, fs1, ev1)) :
    M.bind m k env fs = ((k a env fs1).1, (k a env fs1).2.1, ev1 ++ (k a env fs1).2.2) := by
  unfold M.bind
  rw [h]

theorem M.bind_err {α β : Type} {m : M α} {k : α → M β} {env : Env} {fs fs1 : FS}
    {e : String} {ev1 : List Event} (h : m env fs = (Res.err e, fs1, ev1)) :
    M.bind m k env fs = (Res.err e, fs1, ev1) := by
  unfold M.bind
  rw [h]

theorem M.bind_panic {α β : Type} {m : M α} {k : α → M β} {env : Env} {fs fs1 : FS}
    {ev1 : List Event} (h : m env fs = (Res.panic, fs1, ev1)) :
    M.bind m k env fs = (Res.panic, fs1, ev1) := by
  unfold M.bind
  rw [h]

theorem attempt_ok {α : Type} {m : M α} {env : Env} {fs fs1 : FS} {a : α}
    {ev1 : List Event} (h : m env fs = (Res.ok a, fs1, ev1)) :
    attempt m env fs = (Res.ok (some a), fs1, ev1) := by
  unfold attempt
  rw [h]

theorem attempt_err {α : Type} {m : M α} {env : Env} {fs fs1 : FS} {e : String}
    {ev1 : List Event} (h : m env fs = (Res.err e, fs1, ev1)) :
    attempt m env fs = (Res.ok none, fs1, ev1) := by
  unfold attempt
  rw [h]

theorem attempt_panic {α : Type} {m : M α} {env : Env} {fs fs1 : FS}
    {ev1 : List Event} (h : m env fs = (Res.panic, fs1, ev1)) :
    attempt m env fs = (Res.panic, fs1, ev1) := by
  unfold attempt
  rw [h]

/-! ## Lemmas about directory creation -/

theorem fsCreateDirAllAux_lookup_or_dir (comps : List String) (fs : FS) (base q : FsPath) :
    fsLookup (fsCreateDirAllAux fs base comps).1 q = fsLookup fs q ∨
    fsLookup (fsCreateDirAllAux fs base comps).1 q = some Node.dir := by
  induction comps generalizing fs base with
  | nil => exact Or.inl rfl
  | cons c rest ih =>
    simp only [fsCreateDirAllAux]
    cases hl : fsLookup fs (base ++ [c]) with
    | none =>
      rcases ih (fsSet fs (base ++ [c]) Node.dir) (base ++ [c]) with h | h
      · by_cases hq : q = base ++ [c]
        · subst hq
          right
          rw [h, fsLookup_fsSet_self]
        · left
          rw [h, fsLookup_fsSet_ne _ _ hq]
      · exact Or.inr h
    | some nd =>
      cases nd with
      | dir => exact ih fs (base ++ [c])
      | file b => exact Or.inl rfl
      | symlink t => exact Or.inl rfl

theorem fsCreateDirAllAux_frame (comps : List String) (fs : FS) (base q : FsPath)
    (h : isPrefixL q (base ++ comps) = false) :
    fsLookup (fsCreateDirAllAux fs base comps).1 q = fsLookup fs q := by
  induction comps generalizing fs base with
  | nil => rfl
  | cons c rest ih =>
    have hbc : base ++ c :: rest = (base ++ [c]) ++ rest := by simp
    have h2 : isPrefixL q ((base ++ [c]) ++ rest) = false := by rw [← hbc]; exact h
    have hq : q ≠ base ++ [c] := by
      intro e
      subst e
      rw [hbc, isPrefixL_append] at h
      cases h
    simp only [fsCreateDirAllAux]
    cases hl : fsLookup fs (base ++ [c]) with
    | none =>
      rw [ih _ _ h2]
      exact fsLookup_fsSet_ne _ _ hq
    | some nd =>
      cases nd with
      | dir => exact ih _ _ h2
      | file b => rfl
      | symlink t => rfl

theorem fsCreateDirAllAux_success (comps : List String) (fs : FS) (base : FsPath)
    (hwf : ∀ q, isPrefixL q (base ++ comps) = true →
      fsLookup fs q = none ∨ fsLookup fs q = some Node.dir) :
    (fsCreateDirAllAux fs base comps).2 = true := by
  induction comps generalizing fs base with
  | nil => rfl
  | cons c rest ih =>
    have hbc : base ++ c :: rest = (base ++ [c]) ++ rest := by simp
    have hcur : isPrefixL (base ++ [c]) (base ++ c :: rest) = true := by
      rw [hbc]
      exact isPrefixL_append _ _
    simp only [fsCreateDirAllAux]
    rcases hwf (base ++ [c]) hcur with hl | hl
    · rw [hl]
      apply ih
      intro q hqp
      by_cases hq : q = base ++ [c]
      · subst hq
        right
        exact fsLookup_fsSet_self _ _ _
      · rw [fsLookup_fsSet_ne _ _ hq]
        exact hwf q (by rw [hbc]; exact hqp)
    · rw [hl]
      apply ih
      intro q hqp
      exact hwf q (by rw [hbc]; exact hqp)

theorem fsCreateDirAllAux_post (comps : List String) (fs : FS) (base : FsPath)
    (hne : comps ≠ [])
    (hs : (fsCreateDirAllAux fs base comps).2 = true) :
    fsLookup (fsCreateDirAllAux fs base comps).1 (base ++ comps) = some Node.dir := by
  induction comps generalizing fs base with
  | nil => exact absurd rfl hne
  | cons c rest ih =>
    have hbc : base ++ c :: rest = (base ++ [c]) ++ rest := by simp
    rw [hbc]
    cases rest with
    | nil =>
      simp only [fsCreateDirAllAux] at hs ⊢
      cases hl : fsLookup fs (base ++ [c]) with
      | none => simpa [fsCreateDirAllAux] using fsLookup_fsSet_self fs (base ++ [c]) Node.dir
      | some nd =>
        cases nd with
        | dir => simpa [fsCreateDirAllAux] using hl
        | file b => rw [hl] at hs; cases hs
        | symlink t => rw [hl] at hs; cases hs
    | cons c2 rest2 =>
      simp only [fsCreateDirAllAux] at hs ⊢
      cases hl : fsLookup fs (base ++ [c]) with
      | none =>
        rw [hl] at hs
        exact ih _ _ (by simp) hs
      | some nd =>
        cases nd with
        | dir =>
          rw [hl] at hs
          exact ih _ _ (by simp) hs
        | file b => rw [hl] at hs; cases hs
        | symlink t => rw [hl] at hs; cases hs

theorem fsPathExists_of_dir {fs : FS} {p : FsPath} (h : fsLookup fs p = some Node.dir) :
    fsPathExists fs p = true := by
  unfold fsPathExists
  rw [h]

theorem fsPathExists_false_of_none {fs : FS} {p : FsPath} (h : fsLookup fs p = none) :
    fsPathExists fs p = false := by
  unfold fsPathExists
  rw [h]

theorem fsPathExists_eq_true_iff (fs : FS) (p : FsPath) :
    fsPathExists fs p = true ↔
      (∃ b, fsLookup fs p = some (Node.file b)) ∨ fsLookup fs p = some Node.dir ∨
      (∃ t, fsLookup fs p = some (Node.symlink t) ∧ (fsLookup fs t).isSome) := by
  unfold fsPathExists
  cases h : fsLookup fs p with
  | none => simp
  | some nd => cases nd <;> simp

/-- Setting a non-symlink node never makes an existing path stop existing. -/
theorem fsPathExists_mono_set {fs : FS} {q : FsPath} (p : FsPath) (n : Node)
    (hn : ∀ t, n ≠ Node.symlink t)
    (h : fsPathExists fs q = true) : fsPathExists (fsSet fs p n) q = true := by
  rw [fsPathExists_eq_true_iff] at h ⊢
  by_cases hq : q = p
  · subst hq
    rw [fsLookup_fsSet_self]
    cases n with
    | file b => exact Or.inl ⟨b, rfl⟩
    | dir => exact Or.inr (Or.inl rfl)
    | symlink t => exact absurd rfl (hn t)
  · rw [fsLookup_fsSet_ne _ _ hq]
    rcases h with ⟨b, hb⟩ | hd | ⟨t, ht, hts⟩
    · exact Or.inl ⟨b, hb⟩
    · exact Or.inr (Or.inl hd)
    · refine Or.inr (Or.inr ⟨t, ht, ?_⟩)
      by_cases htp : t = p
      · subst htp
        rw [fsLookup_fsSet_self]
        rfl
      · rw [fsLookup_fsSet_ne _ _ htp]
        exact hts

theorem fsCreateDirAllAux_pathExists_mono (comps : List String) (fs : FS) (base q : FsPath)
    (h : fsPathExists fs q = true) :
    fsPathExists (fsCreateDirAllAux fs base comps).1 q = true := by
  induction comps generalizing fs base with
  | nil => exact h
  | cons c rest ih =>
    simp only [fsCreateDirAllAux]
    cases hl : fsLookup fs (base ++ [c]) with
    | none =>
      exact ih _ _ (fsPathExists_mono_set _ Node.dir (fun t => by simp) h)
    | some nd =>
      cases nd with
      | dir => exact ih _ _ h
      | file b => exact h
      | symlink t => exact h

theorem triple_inj {α : Type} {a : Res α} {b : FS} {c : List Event} {r : Res α}
    {fs1 : FS} {ev : List Event} (h : (a, b, c) = (r, fs1, ev)) :
    r = a ∧ fs1 = b ∧ ev = c := by
  injection h with h1 h2
  injection h2 with h2 h3
  exact ⟨h1.symm, h2.symm, h3.symm⟩

theorem isPrefixL_false_of_append_false {q p r : FsPath}
    (h : isPrefixL q (p ++ r) = false) : isPrefixL q p = false := by
  cases hh : isPrefixL q p
  · rfl
  · rw [isPrefixL_extend hh r] at h
    cases h

theorem ensureDirM_cases (p : FsPath) (pan : Bool) (env : Env) (fs : FS) (r : Res Unit)
    (fs1 : FS) (ev : List Event) (h : ensureDirM p pan env fs = (r, fs1, ev)) :
    (r = Res.ok () ∨ (pan = true ∧ r = Res.panic) ∨
      (pan = false ∧ r = Res.err "create_dir_all error")) ∧
    (∀ q, fsLookup fs1 q = fsLookup fs q ∨ fsLookup fs1 q = some Node.dir) ∧
    (∀ q, isPrefixL q p = false → fsLookup fs1 q = fsLookup fs q) ∧
    (∀ e ∈ ev, e = Event.mkdirAll p) ∧
    (∀ q, fsPathExists fs q = true → fsPathExists fs1 q = true) ∧
    (p ≠ [] → r = Res.ok () → fsPathExists fs1 p = true) := by
  unfold ensureDirM at h
  by_cases hex : fsPathExists fs p = true
  · rw [if_pos hex] at h
    obtain ⟨rfl, rfl, rfl⟩ := triple_inj h
    refine ⟨Or.inl rfl, fun q => Or.inl rfl, fun q _ => rfl, by simp, fun q hq => hq,
      fun _ _ => hex⟩
  · rw [if_neg hex] at h
    rcases hc : fsCreateDirAll fs p with ⟨fs2, flag⟩
    unfold fsCreateDirAll at hc
    rw [show fsCreateDirAll fs p = (fs2, flag) by unfold fsCreateDirAll; exact hc] at h
    have hor : ∀ q, fsLookup fs2 q = fsLookup fs q ∨ fsLookup fs2 q = some Node.dir := by
      intro q
      have := fsCreateDirAllAux_lookup_or_dir p fs [] q
      rw [hc] at this
      simpa using this
    have hfr : ∀ q, isPrefixL q p = false → fsLookup fs2 q = fsLookup fs q := by
      intro q hq
      have := fsCreateDirAllAux_frame p fs [] q (by simpa using hq)
      rw [hc] at this
      simpa using this
    have hmono : ∀ q, fsPathExists fs q = true → fsPathExists fs2 q = true := by
      intro q hq
      have := fsCreateDirAllAux_pathExists_mono p fs [] q hq
      rw [hc] at this
      simpa using this
    cases flag with
    | true =>
      obtain ⟨rfl, rfl, rfl⟩ := triple_inj h
      refine ⟨Or.inl rfl, hor, hfr, by simp, hmono, fun hp _ => ?_⟩
      have := fsCreateDirAllAux_post p fs [] hp (by rw [hc])
      rw [hc] at this
      simp only [List.nil_append] at this
      exact fsPathExists_of_dir (by simpa using this)
    | false =>
      cases pan with
      | true =>
        obtain ⟨rfl, rfl, rfl⟩ :=
          triple_inj ((show ((Res.panic : Res Unit), fs2, ([] : List Event)) = _ from rfl).trans h)
        exact ⟨Or.inr (Or.inl ⟨rfl, rfl⟩), hor, hfr, by simp, hmono,
          fun _ hok => by cases hok⟩
      | false =>
        obtain ⟨rfl, rfl, rfl⟩ :=
          triple_inj ((show ((Res.err "create_dir_all error" : Res Unit), fs2,
            ([] : List Event)) = _ from rfl).trans h)
        exact ⟨Or.inr (Or.inr ⟨rfl, rfl⟩), hor, hfr, by simp, hmono,
          fun _ hok => by cases hok⟩

theorem ensureDirM_wf (p : FsPath) (pan : Bool) (env : Env) (fs : FS) (hp : p ≠ [])
    (hwf : ∀ q, isPrefixL q p = true →
      fsLookup fs q = none ∨ fsLookup fs q = some Node.dir) :
    ∃ fs1 ev, ensureDirM p pan env fs = (Res.ok (), fs1, ev) ∧
      fsLookup fs1 p = some Node.dir := by
  unfold ensureDirM
  by_cases hex : fsPathExists fs p = true
  · refine ⟨fs, [], by rw [if_pos hex], ?_⟩
    rcases hwf p (isPrefixL_refl p) with hn | hd
    · rw [fsPathExists_false_of_none hn] at hex
      cases hex
    · exact hd
  · rw [if_neg hex]
    have hs : (fsCreateDirAll fs p).2 = true := by
      unfold fsCreateDirAll
      exact fsCreateDirAllAux_success p fs [] (by simpa using hwf)
    rcases hc : fsCreateDirAll fs p with ⟨fs2, flag⟩
    rw [hc] at hs
    simp only at hs
    subst hs
    refine ⟨fs2, [Event.mkdirAll p], rfl, ?_⟩
    unfold fsCreateDirAll at hc
    have := fsCreateDirAllAux_post p fs [] hp (by rw [hc])
    rw [hc] at this
    simpa using this

theorem cacheDirPathPure_ne_nil (env : Env) : cacheDirPathPure env ≠ [] := by
  unfold cacheDirPathPure
  cases env.xdgCacheHome <;> simp

theorem cache_dir_cases (env : Env) (fs : FS) (r : Res FsPath) (fs1 : FS) (ev : List Event)
    (h : cache_dir env fs = (r, fs1, ev)) :
    (r = Res.ok (cacheDirPathPure env) ∨ r = Res.panic) ∧
    (∀ q, fsLookup fs1 q = fsLookup fs q ∨ fsLookup fs1 q = some Node.dir) ∧
    (∀ q, isPrefixL q (cacheDirPathPure env) = false → fsLookup fs1 q = fsLookup fs q) ∧
    (∀ e ∈ ev, e = Event.mkdirAll (cacheDirPathPure env)) ∧
    (∀ q, fsPathExists fs q = true → fsPathExists fs1 q = true) ∧
    (r ≠ Res.panic → fsPathExists fs1 (cacheDirPathPure env) = true) := by
  unfold cache_dir at h
  rcases he : ensureDirM (cacheDirPathPure env) true env fs with ⟨re, fse, eve⟩
  obtain ⟨hres, hor, hfr, hev, hmono, hok⟩ :=
    ensureDirM_cases _ _ _ _ _ _ _ he
  cases re with
  | ok a =>
    cases a
    obtain ⟨rfl, rfl, rfl⟩ := triple_inj ((M.bind_ok he).symm.trans h)
    refine ⟨Or.inl rfl, hor, hfr, ?_, hmono,
      fun _ => hok (cacheDirPathPure_ne_nil env) rfl⟩
    intro e hein
    simp only [mret, List.append_nil] at hein
    exact hev e hein
  | err msg =>
    rcases hres with hres | ⟨_, hres⟩ | ⟨hres, _⟩
    · cases hres
    · cases hres
    · cases hres
  | panic =>
    obtain ⟨rfl, rfl, rfl⟩ := triple_inj ((M.bind_panic he).symm.trans h)
    exact ⟨Or.inr rfl, hor, hfr, hev, hmono, fun hne => absurd rfl hne⟩

theorem cache_dir_wf (env : Env) (fs : FS)
    (hwf : ∀ q, isPrefixL q (cacheDirPathPure env) = true →
      fsLookup fs q = none ∨ fsLookup fs q = some Node.dir) :
    ∃ fs1 ev, cache_dir env fs = (Res.ok (cacheDirPathPure env), fs1, ev) ∧
      fsLookup fs1 (cacheDirPathPure env) = some Node.dir := by
  obtain ⟨fs1, ev, he, hd⟩ :=
    ensureDirM_wf (cacheDirPathPure env) true env fs (cacheDirPathPure_ne_nil env) hwf
  refine ⟨fs1, ev, ?_, hd⟩
  unfold cache_dir
  rw [M.bind_ok he]
  simp [mret]

theorem output_dir_cases (env : Env) (fs : FS) (r : Res FsPath) (fs1 : FS) (ev : List Event)
    (h : output_dir env fs = (r, fs1, ev)) :
    (r = Res.ok (cacheDirPathPure env ++ ["current"]) ∨ r = Res.panic) ∧
    (∀ q, fsLookup fs1 q = fsLookup fs q ∨ fsLookup fs1 q = some Node.dir) ∧
    (∀ q, isPrefixL q (cacheDirPathPure env ++ ["current"]) = false →
      fsLookup fs1 q = fsLookup fs q) ∧
    (∀ e ∈ ev, e = Event.mkdirAll (cacheDirPathPure env) ∨
      e = Event.mkdirAll (cacheDirPathPure env ++ ["current"])) ∧
    (∀ q, fsPathExists fs q = true → fsPathExists fs1 q = true) ∧
    (r ≠ Res.panic → fsPathExists fs1 (cacheDirPathPure env) = true ∧
      fsPathExists fs1 (cacheDirPathPure env ++ ["current"]) = true) := by
  unfold output_dir at h
  rcases hc : cache_dir env fs with ⟨rc, fsc, evc⟩
  obtain ⟨hresc, horc, hfrc, hevc, hmonoc, hokc⟩ := cache_dir_cases _ _ _ _ _ hc
  rcases hresc with rfl | rfl
  · rcases he : ensureDirM (cacheDirPathPure env ++ ["current"]) true env fsc
      with ⟨re, fse, eve⟩
    obtain ⟨hres, hor, hfr, hev, hmono, hok⟩ := ensureDirM_cases _ _ _ _ _ _ _ he
    cases re with
    | ok a =>
      cases a
      have hin : M.bind (ensureDirM (cacheDirPathPure env ++ ["current"]) true)
          (fun _ => mret (cacheDirPathPure env ++ ["current"])) env fsc =
          (Res.ok (cacheDirPathPure env ++ ["current"]), fse, eve ++ []) := by
        rw [M.bind_ok he]
        rfl
      obtain ⟨rfl, rfl, rfl⟩ := triple_inj ((M.bind_ok hc).symm.trans h)
      simp only [hin, List.append_nil]
      refine ⟨Or.inl trivial, ?_, ?_, ?_, ?_, ?_⟩
      · intro q
        rcases hor q with h1 | h1
        · rw [h1]
          exact horc q
        · exact Or.inr h1
      · intro q hq
        rw [hfr q hq, hfrc q (isPrefixL_false_of_append_false hq)]
      · intro e hein
        rcases List.mem_append.1 hein with h1 | h1
        · exact Or.inl (hevc e h1)
        · exact Or.inr (hev e h1)
      · exact fun q hq => hmono q (hmonoc q hq)
      · intro _
        refine ⟨hmono _ (hokc (by simp)), hok (by simp) rfl⟩
    | err msg =>
      rcases hres with hres | ⟨_, hres⟩ | ⟨hres, _⟩
      · cases hres
      · cases hres
      · cases hres
    | panic =>
      have hin : M.bind (ensureDirM (cacheDirPathPure env ++ ["current"]) true)
          (fun _ => mret (cacheDirPathPure env ++ ["current"])) env fsc =
          (Res.panic, fse, eve) := M.bind_panic he
      obtain ⟨rfl, rfl, rfl⟩ := triple_inj ((M.bind_ok hc).symm.trans h)
      simp only [hin]
      refine ⟨Or.inr trivial, ?_, ?_, ?_, ?_, fun hne => absurd rfl hne⟩
      · intro q
        rcases hor q with h1 | h1
        · rw [h1]
          exact horc q
        · exact Or.inr h1
      · intro q hq
        rw [hfr q hq, hfrc q (isPrefixL_false_of_append_false hq)]
      · intro e hein
        rcases List.mem_append.1 hein with h1 | h1
        · exact Or.inl (hevc e h1)
        · exact Or.inr (hev e h1)
      · exact fun q hq => hmono q (hmonoc q hq)
  · obtain ⟨rfl, rfl, rfl⟩ := triple_inj ((M.bind_panic hc).symm.trans h)
    refine ⟨Or.inr rfl, horc, ?_, fun e hein => Or.inl (hevc e hein), hmonoc,
      fun hne => absurd rfl hne⟩
    intro q hq
    exact hfrc q (isPrefixL_false_of_append_false hq)

theorem probe_cases (out : FsPath) (env : Env) (fs : FS) (r : Res String) (fs1 : FS)
    (ev : List Event) (h : probe out env fs = (r, fs1, ev)) :
    fs1 = fs ∧ (∀ e ∈ ev, ∃ x, e = Event.runExe x) := by
  unfold probe at h
  by_cases hex : fsPathExists fs (nvimPathOf out) = true
  · rw [if_pos hex] at h
    repeat' split at h
    all_goals obtain ⟨rfl, rfl, rfl⟩ := triple_inj h
    all_goals exact ⟨rfl, by simp⟩
  · rw [if_neg hex] at h
    obtain ⟨rfl, rfl, rfl⟩ := triple_inj h
    exact ⟨rfl, by simp⟩

theorem current_cases (env : Env) (fs : FS) (r : Res String) (fs1 : FS) (ev : List Event)
    (h : current env fs = (r, fs1, ev)) :
    (∀ q, fsLookup fs1 q = fsLookup fs q ∨ fsLookup fs1 q = some Node.dir) ∧
    (∀ q, isPrefixL q (cacheDirPathPure env ++ ["current"]) = false →
      fsLookup fs1 q = fsLookup fs q) ∧
    (∀ e ∈ ev, (∃ d, e = Event.mkdirAll d) ∨ (∃ x, e = Event.runExe x)) ∧
    (∀ q, fsPathExists fs q = true → fsPathExists fs1 q = true) ∧
    (r ≠ Res.panic → fsPathExists fs1 (cacheDirPathPure env) = true ∧
      fsPathExists fs1 (cacheDirPathPure env ++ ["current"]) = true) := by
  unfold current at h
  rcases ho : output_dir env fs with ⟨ro, fso, evo⟩
  obtain ⟨hreso, horo, hfro, hevo, hmonoo, hoko⟩ := output_dir_cases _ _ _ _ _ ho
  rcases hreso with rfl | rfl
  · rcases hpr : probe (cacheDirPathPure env ++ ["current"]) env fso with ⟨rp, fsp, evp⟩
    obtain ⟨rfl, hevp⟩ := probe_cases _ _ _ _ _ _ hpr
    have htot : current env fs = (rp, fsp, evo ++ evp) := by
      unfold current
      rw [M.bind_ok ho, hpr]
    have h2 : current env fs = (r, fs1, ev) := h
    obtain ⟨rfl, rfl, rfl⟩ := triple_inj (htot.symm.trans h2)
    refine ⟨horo, hfro, ?_, hmonoo, fun _ => hoko (by simp)⟩
    intro e hein
    rcases List.mem_append.1 hein with h1 | h1
    · rcases hevo e h1 with h2 | h2
      · exact Or.inl ⟨_, h2⟩
      · exact Or.inl ⟨_, h2⟩
    · exact Or.inr (hevp e h1)
  · obtain ⟨rfl, rfl, rfl⟩ := triple_inj ((M.bind_panic ho).symm.trans h)
    refine ⟨horo, hfro, ?_, hmonoo, fun hne => absurd rfl hne⟩
    intro e hein
    rcases hevo e hein with h2 | h2
    · exact Or.inl ⟨_, h2⟩
    · exact Or.inl ⟨_, h2⟩

/-- If the probe reports exactly the requested version, `switch` takes the
no-op branch: it prints the "Already using" message and does nothing else. -/
theorem switch_noop {env : Env} {fs fs1 : FS} {v : String} {ev1 : List Event}
    (h : current env fs = (Res.ok v, fs1, ev1)) :
    switch v env fs = (Res.ok (), fs1, ev1 ++ [Event.print ("Already using version " ++ v)]) := by
  unfold switch
  rw [M.bind_ok h]
  simp [mprint]

/-- When the cache root already exists, `cache_dir` is a pure no-op. -/
theorem cache_dir_noop {env : Env} {fs : FS}
    (h : fsPathExists fs (cacheDirPathPure env) = true) :
    cache_dir env fs = (Res.ok (cacheDirPathPure env), fs, []) := by
  unfold cache_dir
  rw [M.bind_ok (show ensureDirM (cacheDirPathPure env) true env fs = (Res.ok (), fs, []) by
    unfold ensureDirM; rw [if_pos h])]
  rfl

/-- When the cache root already exists, `path` is a pure no-op returning
the artifact path. -/
theorem path_noop {env : Env} {fs : FS} (version : String)
    (h : fsPathExists fs (cacheDirPathPure env) = true) :
    path version env fs = (Res.ok (artifactPathPure env version), fs, []) := by
  unfold path
  rw [M.bind_ok (cache_dir_noop h)]
  rfl

/-- C3: the claim says a present executable whose invocation yields an
unparsable first line — including empty output — produces a "could not
determine version" error and never a panic.  The code instead panics: with
the executable present and empty stdout, `output.lines().next().unwrap()`
panics.  This theorem evaluates the embedded `current` at that state. -/
theorem C3_panic_on_empty_probe_output :
    fsLookup fs3 ["cache", "nvim_switcher", "current", "nvim-linux64", "bin", "nvim"] =
      some (Node.file [0]) ∧
    env0.runVersion = ProcResult.output "" ∧
    (current env0 fs3).1 = Res.panic := by
  refine ⟨by decide, rfl, by decide⟩

/-- C2 counterexample: in a state with no cache directory, `currentVersion()`
returns "None", so switch("None") is the no-op case — yet it mutates the
filesystem (the probe creates the cache root and active directory),
contradicting "performs no filesystem mutation whatsoever: ... no directory
creation". -/
theorem C2_counterexample :
    (current env0 []).1 = Res.ok "None" ∧
    (switch "None" env0 []).2.1 ≠ [] ∧
    Event.mkdirAll ["cache", "nvim_switcher"] ∈ (switch "None" env0 []).2.2 := by
  decide

/-- C2 (amended): if `currentVersion()` returns `v`, then `switch v` reports
the no-op outcome and performs no download, no removal, no extraction and no
publish; its only effects are the probe's own (possible creation of the
cache root and active directory, and running the probe executable) plus
printing the no-op message. -/
theorem C2_switch_noop_amended (env : Env) (fs fs1 : FS) (v : String) (ev1 : List Event)
    (h : current env fs = (Res.ok v, fs1, ev1)) :
    switch v env fs =
      (Res.ok (), fs1, ev1 ++ [Event.print ("Already using version " ++ v)]) ∧
    ∀ e ∈ ev1 ++ [Event.print ("Already using version " ++ v)],
      e = Event.print ("Already using version " ++ v) ∨ (∃ d, e = Event.mkdirAll d) ∨
      (∃ x, e = Event.runExe x) := by
  refine ⟨switch_noop h, ?_⟩
  intro e hein
  rcases List.mem_append.1 hein with h1 | h1
  · obtain ⟨_, _, hev, _, _⟩ := current_cases _ _ _ _ _ h
    rcases hev e h1 with h2 | h2
    · exact Or.inr (Or.inl h2)
    · exact Or.inr (Or.inr h2)
  · simp only [List.mem_singleton] at h1
    exact Or.inl h1

/-- Witness for C2 (amended) at a concrete state. -/
theorem C2_switch_noop_amended_witness :
    switch "None" env0 [] =
      (Res.ok (), (current env0 []).2.1,
       (current env0 []).2.2 ++ [Event.print ("Already using version " ++ "None")]) :=
  (C2_switch_noop_amended env0 [] ((current env0 []).2.1) "None" ((current env0 []).2.2)
    (by decide)).1

/-- C9: in a state where the probe returns the sentinel "None", invoking
switch with the literal version string "None" succeeds as a no-op: it
downloads nothing, extracts nothing and publishes nothing (the only events
are the no-op message, directory creation by the probe, and the probe run). -/
theorem C9_sentinel_collides_with_version_namespace (env : Env) (fs : FS)
    (h : (current env fs).1 = Res.ok "None") :
    (switch "None" env fs).1 = Res.ok () ∧
    ∀ e ∈ (switch "None" env fs).2.2,
      e = Event.print ("Already using version " ++ "None") ∨ (∃ d, e = Event.mkdirAll d) ∨
      (∃ x, e = Event.runExe x) := by
  have heta : current env fs = ((current env fs).1, (current env fs).2.1, (current env fs).2.2) :=
    rfl
  rw [h] at heta
  have hs := switch_noop heta
  obtain ⟨h1, h2⟩ := C2_switch_noop_amended env fs _ "None" _ heta
  rw [hs]
  exact ⟨rfl, h2⟩

/-- Witness for C9 at a concrete state. -/
theorem C9_witness :
    (switch "None" env0 []).1 = Res.ok () ∧
    ∀ e ∈ (switch "None" env0 []).2.2,
      e = Event.print ("Already using version " ++ "None") ∨ (∃ d, e = Event.mkdirAll d) ∨
      (∃ x, e = Event.runExe x) :=
  C9_sentinel_collides_with_version_namespace env0 [] (by decide)

/-- C8 counterexample: with no cache root present, `path` (the embedding of
`fn path`) mutates the filesystem and performs directory creation,
contradicting "pure function performing no I/O ... no directory creation". -/
theorem C8_counterexample :
    (path "v0" env0 []).2.1 ≠ [] ∧
    Event.mkdirAll ["cache", "nvim_switcher"] ∈ (path "v0" env0 []).2.2 := by
  decide

/-- C8 (amended): `path(version)` deterministically returns the join of the
cache root with `nvim-<version>.tar.gz`; it is pure (no filesystem read or
write, no event) whenever the cache root already exists, but it resolves the
cache root through `cache_dir`, which creates the cache root directory when
it is absent. -/
theorem C8_path_deterministic_amended (env : Env) (fs : FS) (version : String)
    (h : fsPathExists fs (cacheDirPathPure env) = true) :
    path version env fs =
      (Res.ok (cacheDirPathPure env ++ ["nvim-" ++ version ++ ".tar.gz"]), fs, []) :=
  path_noop version h

/-- Witness for C8 (amended) at a concrete state. -/
theorem C8_witness :
    path "v1" env0 fs4 =
      (Res.ok (["cache", "nvim_switcher"] ++ ["nvim-" ++ "v1" ++ ".tar.gz"]), fs4, []) :=
  C8_path_deterministic_amended env0 fs4 "v1" (by decide)

/-- C6 counterexample: purging a version that was never downloaded, in a
state with no cache root, reports the "not found" error but still mutates
the filesystem (creates the cache root), contradicting "mutates nothing". -/
theorem C6_counterexample :
    (purge "v1" env0 []).1 = Res.err ("Version " ++ "v1" ++ " not found") ∧
    (purge "v1" env0 []).2.1 ≠ [] := by
  decide

/-- C6 (amended): provided the cache root directory already exists: if the
cached artifact for `version` exists (as a file), `purge` deletes exactly
that file, succeeds, and leaves every other entry untouched; if the
artifact does not exist, `purge` returns the "Version not found" error and
mutates nothing.  (When the cache root is absent, the only extra effect is
its creation, forced by the counterexample.) -/
theorem C6_purge_amended (env : Env) (fs : FS) (version : String)
    (hc : fsPathExists fs (cacheDirPathPure env) = true) :
    (∀ b, fsLookup fs (artifactPathPure env version) = some (Node.file b) →
      purge version env fs =
        (Res.ok (), fsDel fs (artifactPathPure env version),
         [Event.removeFile (artifactPathPure env version)]) ∧
      ∀ q, q ≠ artifactPathPure env version →
        fsLookup (fsDel fs (artifactPathPure env version)) q = fsLookup fs q) ∧
    (fsPathExists fs (artifactPathPure env version) = false →
      purge version env fs = (Res.err ("Version " ++ version ++ " not found"), fs, [])) := by
  constructor
  · intro b hb
    constructor
    · unfold purge
      rw [M.bind_ok (path_noop version hc)]
      unfold purgeBody
      rw [if_pos (show fsPathExists fs (artifactPathPure env version) = true by
        unfold fsPathExists; rw [hb])]
      rw [hb]
      rfl
    · intro q hq
      exact fsLookup_fsDel_ne fs hq
  · intro hne
    unfold purge
    rw [M.bind_ok (path_noop version hc)]
    unfold purgeBody
    rw [if_neg (by simp [hne])]
    rfl

/-- Witness for C6 (amended): deleting an existing artifact removes exactly
it (leaving the neighbouring cache entries in place), and purging a version
that is not cached errors without mutating anything. -/
theorem C6_witness :
    purge "v1" env0 fs5 =
      (Res.ok (), fsDel fs5 (artifactPathPure env0 "v1"),
       [Event.removeFile (artifactPathPure env0 "v1")]) ∧
    fsLookup (fsDel fs5 (artifactPathPure env0 "v1")) ["cache", "nvim_switcher"] =
      fsLookup fs5 ["cache", "nvim_switcher"] ∧
    purge "v2" env0 fs5 = (Res.err ("Version " ++ "v2" ++ " not found"), fs5, []) := by
  have h1 := (C6_purge_amended env0 fs5 "v1" (by decide)).1 [7] (by decide)
  have h2 := (C6_purge_amended env0 fs5 "v2" (by decide)).2 (by decide)
  exact ⟨h1.1, h1.2 _ (by decide), h2⟩

theorem fsPathExists_of_file {fs : FS} {p : FsPath} {b : List Nat}
    (h : fsLookup fs p = some (Node.file b)) : fsPathExists fs p = true := by
  unfold fsPathExists
  rw [h]

theorem artifact_outside_cache (env : Env) (version : String) :
    isPrefixL (artifactPathPure env version) (cacheDirPathPure env) = false := by
  apply isPrefixL_false_of_length
  simp [artifactPathPure]

theorem path_cases (env : Env) (fs : FS) (version : String) (r : Res FsPath) (fs1 : FS)
    (ev : List Event) (h : path version env fs = (r, fs1, ev)) :
    (r = Res.ok (artifactPathPure env version) ∨ r = Res.panic) ∧
    (∀ q, fsLookup fs1 q = fsLookup fs q ∨ fsLookup fs1 q = some Node.dir) ∧
    (∀ q, isPrefixL q (cacheDirPathPure env) = false → fsLookup fs1 q = fsLookup fs q) ∧
    (∀ e ∈ ev, e = Event.mkdirAll (cacheDirPathPure env)) ∧
    (∀ q, fsPathExists fs q = true → fsPathExists fs1 q = true) ∧
    (r ≠ Res.panic → fsPathExists fs1 (cacheDirPathPure env) = true) := by
  unfold path at h
  rcases hc : cache_dir env fs with ⟨rc, fsc, evc⟩
  obtain ⟨hres, hor, hfr, hev, hmono, hok⟩ := cache_dir_cases _ _ _ _ _ hc
  rcases hres with rfl | rfl
  · obtain ⟨rfl, rfl, rfl⟩ := triple_inj ((M.bind_ok hc).symm.trans h)
    refine ⟨Or.inl rfl, hor, hfr, ?_, hmono, fun _ => hok (by simp)⟩
    intro e hein
    simp only [mret, List.append_nil] at hein
    exact hev e hein
  · obtain ⟨rfl, rfl, rfl⟩ := triple_inj ((M.bind_panic hc).symm.trans h)
    exact ⟨Or.inr rfl, hor, hfr, hev, hmono, fun hne => absurd rfl hne⟩

/-- Exhaustive case facts about `downloadBody`. -/
theorem downloadBody_cases (version : String) (p : FsPath) (env : Env) (fs : FS)
    (r : Res FsPath) (fs2 : FS) (ev : List Event)
    (h : downloadBody version p env fs = (r, fs2, ev)) :
    (∀ x, r = Res.ok x → x = p) ∧
    countFetch ev ≤ 1 ∧
    (∀ x, r = Res.ok x → fsPathExists fs2 p = true) ∧
    (∀ x, r = Res.ok x → ∀ q, fsPathExists fs q = true → fsPathExists fs2 q = true) ∧
    (∀ x, r = Res.ok x → fsPathExists fs p = true → fs2 = fs ∧
      ev = [Event.print ("Version " ++ version ++ " already downloaded")]) ∧
    (∀ e, r = Res.err e → fsLookup fs p = none → fsLookup fs2 p = none) ∧
    (∀ q, q ≠ p → fsLookup fs2 q = fsLookup fs q) := by
  unfold downloadBody at h
  by_cases hex : fsPathExists fs p = true
  · rw [if_pos hex] at h
    obtain ⟨rfl, rfl, rfl⟩ := triple_inj h
    exact ⟨fun x hx => (Res.ok.inj hx).symm, by simp [countFetch], fun x _ => hex,
      fun x _ q hq => hq, fun x _ _ => ⟨rfl, rfl⟩, fun e he => Res.noConfusion he,
      fun q _ => rfl⟩
  · rw [if_neg hex] at h
    simp only [] at h
    repeat' split at h
    · -- connection failure
      obtain ⟨rfl, rfl, rfl⟩ := triple_inj h
      exact ⟨fun x hx => Res.noConfusion hx, by simp [countFetch],
        fun x hx => Res.noConfusion hx, fun x hx => Res.noConfusion hx,
        fun x hx => Res.noConfusion hx, fun e _ hn => hn, fun q _ => rfl⟩
    · -- success status but File::create fails on an existing directory
      obtain ⟨rfl, rfl, rfl⟩ := triple_inj h
      exact ⟨fun x hx => Res.noConfusion hx, by simp [countFetch],
        fun x hx => Res.noConfusion hx, fun x hx => Res.noConfusion hx,
        fun x hx => Res.noConfusion hx, fun e _ hn => hn, fun q _ => rfl⟩
    · -- body delivered in full
      obtain ⟨rfl, rfl, rfl⟩ := triple_inj h
      refine ⟨fun x hx => (Res.ok.inj hx).symm, by simp [countFetch], ?_, ?_,
        fun x _ hex2 => absurd hex2 hex, fun e he => Res.noConfusion he, ?_⟩
      · intro x _
        exact fsPathExists_of_file (fsLookup_fsSet_self _ _ _)
      · intro x _ q hq
        exact fsPathExists_mono_set _ _ (by simp)
          (fsPathExists_mono_set _ _ (by simp) hq)
      · intro q hq
        rw [fsLookup_fsSet_ne _ _ hq, fsLookup_fsSet_ne _ _ hq]
    · -- body fails partway: the partial file is removed
      obtain ⟨rfl, rfl, rfl⟩ := triple_inj h
      refine ⟨fun x hx => Res.noConfusion hx, by simp [countFetch],
        fun x hx => Res.noConfusion hx, fun x hx => Res.noConfusion hx,
        fun x hx => Res.noConfusion hx, fun e _ _ => fsLookup_fsDel_self _ _, ?_⟩
      intro q hq
      rw [fsLookup_fsDel_ne _ hq, fsLookup_fsSet_ne _ _ hq, fsLookup_fsSet_ne _ _ hq]
    · -- non-success response status
      obtain ⟨rfl, rfl, rfl⟩ := triple_inj h
      exact ⟨fun x hx => Res.noConfusion hx, by simp [countFetch],
        fun x hx => Res.noConfusion hx, fun x hx => Res.noConfusion hx,
        fun x hx => Res.noConfusion hx, fun e _ hn => hn, fun q _ => rfl⟩

/-- C4: if `download` returns an error and nothing was at the artifact path
initially, then nothing is at the artifact path afterwards — an error never
leaves a partial artifact at the final name (`fs::remove_file` is invoked
on the partially-written file before the error is returned, and the error
paths before the file is created write nothing). -/
theorem C4_no_partial_artifact_on_error (env : Env) (fs : FS) (version : String)
    (e : String) (fs2 : FS) (ev : List Event)
    (hnone : fsLookup fs (artifactPathPure env version) = none)
    (herr : download version env fs = (Res.err e, fs2, ev)) :
    fsLookup fs2 (artifactPathPure env version) = none := by
  unfold download at herr
  rcases hp : path version env fs with ⟨rp, fsp, evp⟩
  obtain ⟨hres, _, hfrp, _, _, _⟩ := path_cases _ _ _ _ _ _ hp
  rcases hres with rfl | rfl
  · have hnonep : fsLookup fsp (artifactPathPure env version) = none := by
      rw [hfrp _ (artifact_outside_cache env version)]
      exact hnone
    rcases hb : downloadBody version (artifactPathPure env version) env fsp with ⟨rb, fsb, evb⟩
    have htot := (M.bind_ok hp).symm.trans herr
    rw [hb] at htot
    obtain ⟨h1, rfl, rfl⟩ := triple_inj htot
    obtain ⟨_, _, _, _, _, herrb, _⟩ := downloadBody_cases _ _ _ _ _ _ _ hb
    exact herrb e h1.symm hnonep
  · obtain ⟨h1, _, _⟩ := triple_inj ((M.bind_panic hp).symm.trans herr)
    cases h1

/-- Witness for C4 at a concrete state: the network delivers a body that
fails partway, `download` errors, and no artifact file remains. -/
theorem C4_witness :
    fsLookup (download "v1"
      { env0 with net := netBroken } fs4).2.1 (artifactPathPure env0 "v1") = none := by
  have h := C4_no_partial_artifact_on_error { env0 with net := netBroken } fs4 "v1"
    "Failed to store version"
    (download "v1" { env0 with net := netBroken } fs4).2.1
    (download "v1" { env0 with net := netBroken } fs4).2.2
    (by decide) (by decide)
  exact h

/-- C5: `download` is idempotent.  (a) If the artifact already exists at the
computed path, `download` returns that path immediately, mutating nothing
and performing no network access (the only event is the "already
downloaded" message).  (b) If a call succeeds, it performed at most one
network fetch, and a second call returns the same path with no fetch at
all and no state change.  Stated under the assumption that the cache root
directory already exists. -/
theorem C5_download_idempotent (env : Env) (fs : FS) (version : String)
    (hc : fsPathExists fs (cacheDirPathPure env) = true) :
    (fsPathExists fs (artifactPathPure env version) = true →
      download version env fs =
        (Res.ok (artifactPathPure env version), fs,
         [Event.print ("Version " ++ version ++ " already downloaded")])) ∧
    (∀ r fs2 ev, download version env fs = (Res.ok r, fs2, ev) →
      r = artifactPathPure env version ∧
      countFetch ev ≤ 1 ∧
      download version env fs2 =
        (Res.ok r, fs2, [Event.print ("Version " ++ version ++ " already downloaded")])) := by
  constructor
  · intro hex
    unfold download
    rw [M.bind_ok (path_noop version hc)]
    unfold downloadBody
    rw [if_pos hex]
    rfl
  · intro r fs2 ev h
    rcases hb : downloadBody version (artifactPathPure env version) env fs with ⟨rb, fsb, evb⟩
    have htot : download version env fs = (rb, fsb, [] ++ evb) := by
      unfold download
      rw [M.bind_ok (path_noop version hc), hb]
    obtain ⟨h1, rfl, rfl⟩ := triple_inj (htot.symm.trans h)
    obtain ⟨hval, hcount, hexp, hmono, _, _, _⟩ := downloadBody_cases _ _ _ _ _ _ _ hb
    have hr : r = artifactPathPure env version := hval r h1.symm
    have hc2 : fsPathExists fs2 (cacheDirPathPure env) = true := hmono r h1.symm _ hc
    have hexp2 : fsPathExists fs2 (artifactPathPure env version) = true := hexp r h1.symm
    refine ⟨hr, by simpa [countFetch] using hcount, ?_⟩
    unfold download
    rw [M.bind_ok (path_noop version hc2)]
    unfold downloadBody
    rw [if_pos hexp2, hr]
    rfl

/-- Witness for C5 at a concrete state: the artifact is already cached, so
`download` returns the path, changes nothing, fetches nothing — and doing
it twice gives the same result. -/
theorem C5_witness :
    download "v1" env0 fs5 =
      (Res.ok (artifactPathPure env0 "v1"), fs5,
       [Event.print ("Version " ++ "v1" ++ " already downloaded")]) ∧
    download "v1" env0 fs5 =
      (Res.ok (artifactPathPure env0 "v1"), fs5,
       [Event.print ("Version " ++ "v1" ++ " already downloaded")]) ∧
    countFetch [Event.print ("Version " ++ "v1" ++ " already downloaded")] = 0 := by
  have ha := (C5_download_idempotent env0 fs5 "v1" (by decide)).1 (by decide)
  have hb := (C5_download_idempotent env0 fs5 "v1" (by decide)).2
    (artifactPathPure env0 "v1") fs5
    [Event.print ("Version " ++ "v1" ++ " already downloaded")] ha
  exact ⟨ha, hb.2.2, by decide⟩

theorem removeFileM_cases (p : FsPath) (env : Env) (fs : FS) (r : Res Unit) (fs2 : FS)
    (ev : List Event) (h : removeFileM p env fs = (r, fs2, ev)) :
    (r = Res.ok () → fs2 = fsDel fs p) ∧
    (r ≠ Res.ok () → fs2 = fs) ∧
    (fsLookup fs p = some Node.dir → r ≠ Res.ok ()) := by
  unfold removeFileM at h
  repeat' split at h
  · obtain ⟨rfl, rfl, rfl⟩ := triple_inj h
    exact ⟨fun hok => Res.noConfusion hok, fun _ => rfl, fun _ => fun hok => Res.noConfusion hok⟩
  · obtain ⟨rfl, rfl, rfl⟩ := triple_inj h
    refine ⟨fun _ => rfl, fun hne => absurd rfl hne, fun hdir hok => ?_⟩
    simp_all
  · obtain ⟨rfl, rfl, rfl⟩ := triple_inj h
    exact ⟨fun hok => Res.noConfusion hok, fun _ => rfl, fun _ => fun hok => Res.noConfusion hok⟩

theorem symlinkM_cases (tgt link : FsPath) (env : Env) (fs : FS) (r : Res Unit) (fs2 : FS)
    (ev : List Event) (h : symlinkM tgt link env fs = (r, fs2, ev)) :
    (r = Res.ok () → fsLookup fs link = none ∧ fs2 = fsSet fs link (Node.symlink tgt)) ∧
    (r ≠ Res.ok () → fs2 = fs) := by
  unfold symlinkM at h
  repeat' split at h
  · obtain ⟨rfl, rfl, rfl⟩ := triple_inj h
    exact ⟨fun hok => Res.noConfusion hok, fun _ => rfl⟩
  · obtain ⟨rfl, rfl, rfl⟩ := triple_inj h
    rename_i hlook
    exact ⟨fun _ => ⟨hlook, rfl⟩, fun hne => absurd rfl hne⟩

theorem symlinkStep_cases (src out : FsPath) (n : String) (env : Env) (fs : FS)
    (r : Res Unit) (fs2 : FS) (ev : List Event)
    (h : symlinkStep src out n env fs = (r, fs2, ev)) :
    (r = Res.ok () → fsLookup fs2 (out ++ [n]) = some (Node.symlink (src ++ [n]))) ∧
    (∀ q, q ≠ out ++ [n] → isPrefixL q out = false → fsLookup fs2 q = fsLookup fs q) ∧
    (∀ X, fsLookup fs X = some Node.dir → fsLookup fs2 X = some Node.dir) := by
  unfold symlinkStep at h
  rcases he : ensureDirM out false env fs with ⟨re, fse, eve⟩
  obtain ⟨hrese, hore, hfre, _, _, _⟩ := ensureDirM_cases _ _ _ _ _ _ _ he
  have hdire : ∀ X, fsLookup fs X = some Node.dir → fsLookup fse X = some Node.dir := by
    intro X hX
    rcases hore X with h1 | h1
    · rw [h1, hX]
    · exact h1
  cases re with
  | panic =>
    rcases hrese with hcon | ⟨hcon, _⟩ | ⟨_, hcon⟩
    · cases hcon
    · cases hcon
    · cases hcon
  | err msg =>
    obtain ⟨rfl, rfl, rfl⟩ := triple_inj ((M.bind_err he).symm.trans h)
    exact ⟨fun hok => Res.noConfusion hok, fun q _ hq2 => hfre q hq2, hdire⟩
  | ok a =>
    cases a
    rw [M.bind_ok he] at h
    rw [M.bind_ok (show existsM (out ++ [n]) env fse =
      (Res.ok (fsPathExists fse (out ++ [n])), fse, []) from rfl)] at h
    simp only [List.append_nil, List.nil_append] at h
    by_cases hlex : fsPathExists fse (out ++ [n]) = true
    · rw [hlex] at h
      rw [if_pos rfl] at h
      rcases hrm : removeFileM (out ++ [n]) env fse with ⟨rr, fsr, evr⟩
      obtain ⟨hrmok, hrmne, hrmdir⟩ := removeFileM_cases _ _ _ _ _ _ hrm
      cases rr with
      | panic =>
        have hb : M.bind (removeFileM (out ++ [n]))
            (fun _ => symlinkM (src ++ [n]) (out ++ [n])) env fse = (Res.panic, fsr, evr) :=
          M.bind_panic hrm
        rw [hb] at h
        obtain ⟨rfl, rfl, rfl⟩ := triple_inj h
        have hfs : fs2 = fse := hrmne (fun hcon => Res.noConfusion hcon)
        subst hfs
        exact ⟨fun hok => Res.noConfusion hok, fun q _ hq2 => hfre q hq2, hdire⟩
      | err msg =>
        have hb : M.bind (removeFileM (out ++ [n]))
            (fun _ => symlinkM (src ++ [n]) (out ++ [n])) env fse = (Res.err msg, fsr, evr) :=
          M.bind_err hrm
        rw [hb] at h
        obtain ⟨rfl, rfl, rfl⟩ := triple_inj h
        have hfs : fs2 = fse := hrmne (fun hcon => Res.noConfusion hcon)
        subst hfs
        exact ⟨fun hok => Res.noConfusion hok, fun q _ hq2 => hfre q hq2, hdire⟩
      | ok a =>
        cases a
        have hfs : fsr = fsDel fse (out ++ [n]) := hrmok rfl
        subst hfs
        rcases hsl : symlinkM (src ++ [n]) (out ++ [n]) env (fsDel fse (out ++ [n]))
          with ⟨rs, fss, evs⟩
        obtain ⟨hslok, hslne⟩ := symlinkM_cases _ _ _ _ _ _ _ hsl
        have hb : M.bind (removeFileM (out ++ [n]))
            (fun _ => symlinkM (src ++ [n]) (out ++ [n])) env fse =
            (rs, fss, evr ++ evs) := by
          rw [M.bind_ok hrm, hsl]
        rw [hb] at h
        obtain ⟨rfl, rfl, rfl⟩ := triple_inj h
        have hnotdir : fsLookup fse (out ++ [n]) ≠ some Node.dir := by
          intro hcon
          exact hrmdir hcon rfl
        refine ⟨?_, ?_, ?_⟩
        · intro hok
          obtain ⟨_, rfl⟩ := hslok hok
          exact fsLookup_fsSet_self _ _ _
        · intro q hq1 hq2
          by_cases hok : r = Res.ok ()
          · obtain ⟨_, rfl⟩ := hslok hok
            rw [fsLookup_fsSet_ne _ _ hq1, fsLookup_fsDel_ne _ hq1]
            exact hfre q hq2
          · rw [hslne hok, fsLookup_fsDel_ne _ hq1]
            exact hfre q hq2
        · intro X hX
          have hXe : fsLookup fse X = some Node.dir := hdire X hX
          have hXne : X ≠ out ++ [n] := by
            intro hcon
            rw [hcon] at hXe
            exact hnotdir hXe
          by_cases hok : r = Res.ok ()
          · obtain ⟨_, rfl⟩ := hslok hok
            rw [fsLookup_fsSet_ne _ _ hXne, fsLookup_fsDel_ne _ hXne]
            exact hXe
          · rw [hslne hok, fsLookup_fsDel_ne _ hXne]
            exact hXe
    · rw [show fsPathExists fse (out ++ [n]) = false by
        cases hv : fsPathExists fse (out ++ [n])
        · rfl
        · exact absurd hv hlex] at h
      rw [if_neg (by simp)] at h
      rw [M.bind_ok (show mret () env fse = (Res.ok (), fse, []) from rfl)] at h
      simp only [List.nil_append] at h
      rcases hsl : symlinkM (src ++ [n]) (out ++ [n]) env fse with ⟨rs, fss, evs⟩
      obtain ⟨hslok, hslne⟩ := symlinkM_cases _ _ _ _ _ _ _ hsl
      rw [hsl] at h
      obtain ⟨rfl, rfl, rfl⟩ := triple_inj h
      refine ⟨?_, ?_, ?_⟩
      · intro hok
        obtain ⟨_, rfl⟩ := hslok hok
        exact fsLookup_fsSet_self _ _ _
      · intro q hq1 hq2
        by_cases hok : r = Res.ok ()
        · obtain ⟨_, rfl⟩ := hslok hok
          rw [fsLookup_fsSet_ne _ _ hq1]
          exact hfre q hq2
        · rw [hslne hok]
          exact hfre q hq2
      · intro X hX
        have hXe : fsLookup fse X = some Node.dir := hdire X hX
        by_cases hok : r = Res.ok ()
        · obtain ⟨hnone, rfl⟩ := hslok hok
          have hXne : X ≠ out ++ [n] := by
            intro hcon
            rw [hcon] at hXe
            rw [hXe] at hnone
            cases hnone
          rw [fsLookup_fsSet_ne _ _ hXne]
          exact hXe
        · rw [hslne hok]
          exact hXe

theorem symlinksLoop_dir_pres (src out : FsPath) (names : List String) (env : Env) :
    ∀ fs r fs2 ev X, symlinksLoop src out names env fs = (r, fs2, ev) →
      fsLookup fs X = some Node.dir → fsLookup fs2 X = some Node.dir := by
  induction names with
  | nil =>
    intro fs r fs2 ev X h hX
    obtain ⟨rfl, rfl, rfl⟩ := triple_inj h
    exact hX
  | cons m rest ih =>
    intro fs r fs2 ev X h hX
    unfold symlinksLoop at h
    rcases hs : symlinkStep src out m env fs with ⟨rs, fss, evs⟩
    obtain ⟨_, _, hdirs⟩ := symlinkStep_cases _ _ _ _ _ _ _ _ hs
    cases rs with
    | ok a =>
      cases a
      rcases hrest : symlinksLoop src out rest env fss with ⟨rr, fsr, evr⟩
      have hb : M.bind (symlinkStep src out m) (fun _ => symlinksLoop src out rest) env fs =
          (rr, fsr, evs ++ evr) := by
        rw [M.bind_ok hs, hrest]
      rw [hb] at h
      obtain ⟨rfl, rfl, rfl⟩ := triple_inj h
      exact ih fss _ _ _ X hrest (hdirs X hX)
    | err msg =>
      obtain ⟨rfl, rfl, rfl⟩ := triple_inj ((M.bind_err hs).symm.trans h)
      exact hdirs X hX
    | panic =>
      obtain ⟨rfl, rfl, rfl⟩ := triple_inj ((M.bind_panic hs).symm.trans h)
      exact hdirs X hX

theorem symlinksLoop_frame (src out : FsPath) (names : List String) (env : Env) :
    ∀ fs r fs2 ev q, symlinksLoop src out names env fs = (r, fs2, ev) →
      (∀ n, n ∈ names → q ≠ out ++ [n]) → isPrefixL q out = false →
      fsLookup fs2 q = fsLookup fs q := by
  induction names with
  | nil =>
    intro fs r fs2 ev q h _ _
    obtain ⟨rfl, rfl, rfl⟩ := triple_inj h
    rfl
  | cons m rest ih =>
    intro fs r fs2 ev q h hq hp
    unfold symlinksLoop at h
    rcases hs : symlinkStep src out m env fs with ⟨rs, fss, evs⟩
    obtain ⟨_, hframe, _⟩ := symlinkStep_cases _ _ _ _ _ _ _ _ hs
    have hstep : fsLookup fss q = fsLookup fs q :=
      hframe q (hq m (by simp)) hp
    cases rs with
    | ok a =>
      cases a
      rcases hrest : symlinksLoop src out rest env fss with ⟨rr, fsr, evr⟩
      have hb : M.bind (symlinkStep src out m) (fun _ => symlinksLoop src out rest) env fs =
          (rr, fsr, evs ++ evr) := by
        rw [M.bind_ok hs, hrest]
      rw [hb] at h
      obtain ⟨rfl, rfl, rfl⟩ := triple_inj h
      rw [ih fss _ _ _ q hrest (fun n hn => hq n (by simp [hn])) hp]
      exact hstep
    | err msg =>
      obtain ⟨rfl, rfl, rfl⟩ := triple_inj ((M.bind_err hs).symm.trans h)
      exact hstep
    | panic =>
      obtain ⟨rfl, rfl, rfl⟩ := triple_inj ((M.bind_panic hs).symm.trans h)
      exact hstep

theorem symlinksLoop_publishes (src out : FsPath) (names : List String) (env : Env) :
    ∀ fs fs2 ev n, symlinksLoop src out names env fs = (Res.ok (), fs2, ev) → n ∈ names →
      fsLookup fs2 (out ++ [n]) = some (Node.symlink (src ++ [n])) := by
  induction names with
  | nil =>
    intro fs fs2 ev n _ hn
    simp at hn
  | cons m rest ih =>
    intro fs fs2 ev n h hn
    unfold symlinksLoop at h
    rcases hs : symlinkStep src out m env fs with ⟨rs, fss, evs⟩
    obtain ⟨hpub, _, _⟩ := symlinkStep_cases _ _ _ _ _ _ _ _ hs
    cases rs with
    | ok a =>
      cases a
      rcases hrest : symlinksLoop src out rest env fss with ⟨rr, fsr, evr⟩
      have hb : M.bind (symlinkStep src out m) (fun _ => symlinksLoop src out rest) env fs =
          (rr, fsr, evs ++ evr) := by
        rw [M.bind_ok hs, hrest]
      rw [hb] at h
      obtain ⟨hok, rfl, rfl⟩ := triple_inj h
      by_cases hnr : n ∈ rest
      · exact ih fss _ _ n (hok ▸ hrest) hnr
      · have hnm : n = m := by
          rcases List.mem_cons.1 hn with h1 | h1
          · exact h1
          · exact absurd h1 hnr
        subst hnm
        have hstep : fsLookup fss (out ++ [n]) = some (Node.symlink (src ++ [n])) := hpub rfl
        rw [symlinksLoop_frame src out rest env fss _ _ _ (out ++ [n]) hrest ?_ ?_]
        · exact hstep
        · intro n2 hn2 hcon
          have : n = n2 := by
            have := List.append_cancel_left hcon
            injection this
          exact hnr (this ▸ hn2)
        · exact isPrefixL_false_of_length (by simp)
    | err msg =>
      obtain ⟨hok, _, _⟩ := triple_inj ((M.bind_err hs).symm.trans h)
      cases hok
    | panic =>
      obtain ⟨hok, _, _⟩ := triple_inj ((M.bind_panic hs).symm.trans h)
      cases hok

theorem readDirM_state (p : FsPath) (env : Env) (fs : FS) (r : Res (List String)) (fs1 : FS)
    (ev : List Event) (h : readDirM p env fs = (r, fs1, ev)) : fs1 = fs ∧ ev = [] := by
  unfold readDirM at h
  repeat' split at h
  all_goals obtain ⟨_, h2, h3⟩ := triple_inj h
  all_goals exact ⟨h2, h3⟩

theorem readDirM_ok_names (p : FsPath) (env : Env) (fs : FS) (names : List String) (fs1 : FS)
    (ev : List Event) (h : readDirM p env fs = (Res.ok names, fs1, ev)) :
    names = fsReadDir fs p := by
  unfold readDirM at h
  repeat' split at h
  · obtain ⟨hok, _, _⟩ := triple_inj h
    exact (Res.ok.inj hok.symm).symm
  · obtain ⟨hok, _, _⟩ := triple_inj h
    cases hok

theorem symlinks_publishes (src out : FsPath) (env : Env) (fs fs2 : FS) (ev : List Event)
    (n : String) (h : symlinks src out env fs = (Res.ok (), fs2, ev))
    (hn : n ∈ fsReadDir fs src) :
    fsLookup fs2 (out ++ [n]) = some (Node.symlink (src ++ [n])) := by
  unfold symlinks at h
  rcases hrd : readDirM src env fs with ⟨rd, fsd, evd⟩
  obtain ⟨hfs, hev⟩ := readDirM_state _ _ _ _ _ _ hrd
  rw [hfs, hev] at hrd
  cases rd with
  | ok names =>
    have hnames := readDirM_ok_names _ _ _ _ _ _ hrd
    subst hnames
    rcases hloop : symlinksLoop src out (fsReadDir fs src) env fs with ⟨rl, fsl, evl⟩
    have hb : M.bind (readDirM src) (fun names => symlinksLoop src out names) env fs =
        (rl, fsl, [] ++ evl) := by
      rw [M.bind_ok hrd]
      rw [hloop]
    rw [hb] at h
    obtain ⟨hok, rfl, rfl⟩ := triple_inj h
    exact symlinksLoop_publishes src out _ env fs _ _ n (hok ▸ hloop) hn
  | err msg =>
    obtain ⟨hok, _, _⟩ := triple_inj ((M.bind_err hrd).symm.trans h)
    cases hok
  | panic =>
    obtain ⟨hok, _, _⟩ := triple_inj ((M.bind_panic hrd).symm.trans h)
    cases hok

theorem symlinks_frame (src out : FsPath) (env : Env) (fs : FS) (r : Res Unit) (fs2 : FS)
    (ev : List Event) (q : FsPath) (h : symlinks src out env fs = (r, fs2, ev))
    (hq : ∀ n, n ∈ fsReadDir fs src → q ≠ out ++ [n]) (hp : isPrefixL q out = false) :
    fsLookup fs2 q = fsLookup fs q := by
  unfold symlinks at h
  rcases hrd : readDirM src env fs with ⟨rd, fsd, evd⟩
  obtain ⟨hfs, hev⟩ := readDirM_state _ _ _ _ _ _ hrd
  rw [hfs, hev] at hrd
  cases rd with
  | ok names =>
    have hnames := readDirM_ok_names _ _ _ _ _ _ hrd
    subst hnames
    rcases hloop : symlinksLoop src out (fsReadDir fs src) env fs with ⟨rl, fsl, evl⟩
    have hb : M.bind (readDirM src) (fun names => symlinksLoop src out names) env fs =
        (rl, fsl, [] ++ evl) := by
      rw [M.bind_ok hrd]
      rw [hloop]
    rw [hb] at h
    obtain ⟨rfl, rfl, rfl⟩ := triple_inj h
    exact symlinksLoop_frame src out _ env fs _ _ _ q hloop hq hp
  | err msg =>
    obtain ⟨rfl, rfl, rfl⟩ := triple_inj ((M.bind_err hrd).symm.trans h)
    rfl
  | panic =>
    obtain ⟨rfl, rfl, rfl⟩ := triple_inj ((M.bind_panic hrd).symm.trans h)
    rfl

theorem symlinks_dir_pres (src out : FsPath) (env : Env) (fs : FS) (r : Res Unit) (fs2 : FS)
    (ev : List Event) (X : FsPath) (h : symlinks src out env fs = (r, fs2, ev))
    (hX : fsLookup fs X = some Node.dir) : fsLookup fs2 X = some Node.dir := by
  unfold symlinks at h
  rcases hrd : readDirM src env fs with ⟨rd, fsd, evd⟩
  obtain ⟨hfs, hev⟩ := readDirM_state _ _ _ _ _ _ hrd
  rw [hfs, hev] at hrd
  cases rd with
  | ok names =>
    have hnames := readDirM_ok_names _ _ _ _ _ _ hrd
    subst hnames
    rcases hloop : symlinksLoop src out (fsReadDir fs src) env fs with ⟨rl, fsl, evl⟩
    have hb : M.bind (readDirM src) (fun names => symlinksLoop src out names) env fs =
        (rl, fsl, [] ++ evl) := by
      rw [M.bind_ok hrd]
      rw [hloop]
    rw [hb] at h
    obtain ⟨rfl, rfl, rfl⟩ := triple_inj h
    exact symlinksLoop_dir_pres src out _ env fs _ _ _ X hloop hX
  | err msg =>
    obtain ⟨rfl, rfl, rfl⟩ := triple_inj ((M.bind_err hrd).symm.trans h)
    exact hX
  | panic =>
    obtain ⟨rfl, rfl, rfl⟩ := triple_inj ((M.bind_panic hrd).symm.trans h)
    exact hX

/-- C1 counterexample: the source directory `/s` contains entry `a`, and a
same-named DIRECTORY sits at the output location `/o/a`.  The claim says it
is removed and replaced by a symlink; instead `fs::remove_file` fails on
the directory, the publish aborts with an error, the directory is still
there and no symlink was created. -/
theorem C1_counterexample :
    "a" ∈ fsReadDir fs1 ["s"] ∧
    fsLookup fs1 ["o", "a"] = some Node.dir ∧
    (symlinks ["s"] ["o"] env0 fs1).1 ≠ Res.ok () ∧
    fsLookup (symlinks ["s"] ["o"] env0 fs1).2.1 ["o", "a"] = some Node.dir := by
  decide

/-- C1 (amended): during a publish (`fn symlinks`), a pre-existing
same-named regular file or symlink at the output location is removed and
replaced, so on every publish call that returns `Ok`, each entry of the
source directory ends with a symlink at the output path pointing to the
source entry's path; but when the pre-existing entry is a directory,
`fs::remove_file` fails and the publish aborts with an error instead of
removing it (so the call cannot return `Ok`). -/
theorem C1_publish_replace_amended :
    (∀ (env : Env) (fs : FS) (src out : FsPath) (n : String) (fs2 : FS) (ev : List Event),
      symlinks src out env fs = (Res.ok (), fs2, ev) →
      n ∈ fsReadDir fs src →
      fsLookup fs2 (out ++ [n]) = some (Node.symlink (src ++ [n]))) ∧
    (∀ (env : Env) (fs : FS) (src out : FsPath) (n : String),
      n ∈ fsReadDir fs src →
      fsLookup fs (out ++ [n]) = some Node.dir →
      (symlinks src out env fs).1 ≠ Res.ok ()) := by
  constructor
  · intro env fs src out n fs2 ev h hn
    exact symlinks_publishes src out env fs fs2 ev n h hn
  · intro env fs src out n hn hdir hok
    rcases hsym : symlinks src out env fs with ⟨r, fs2, ev⟩
    have hr : r = Res.ok () := by
      rw [hsym] at hok
      exact hok
    subst hr
    have h1 := symlinks_publishes src out env fs fs2 ev n hsym hn
    have h2 := symlinks_dir_pres src out env fs _ fs2 ev (out ++ [n]) hsym hdir
    rw [h1] at h2
    cases h2

/-- Witness for C1 (amended): a successful publish over a source with entry
`a` replaces the pre-existing regular file at `/o/a` with a symlink, and a
publish over a state with a directory at the output entry cannot succeed. -/
theorem C1_witness :
    fsLookup (symlinks ["s"] ["o"] env0 fs1b).2.1 (["o"] ++ ["a"]) =
      some (Node.symlink (["s"] ++ ["a"])) ∧
    (symlinks ["s"] ["o"] env0 fs1).1 ≠ Res.ok () := by
  constructor
  · exact C1_publish_replace_amended.1 env0 fs1b ["s"] ["o"] "a"
      ((symlinks ["s"] ["o"] env0 fs1b).2.1) ((symlinks ["s"] ["o"] env0 fs1b).2.2)
      (by decide) (by decide)
  · exact C1_publish_replace_amended.2 env0 fs1 ["s"] ["o"] "a" (by decide) (by decide)

theorem insertTree_frame (out : FsPath) (entries : List (FsPath × Node)) :
    ∀ fs q, (∀ e ∈ entries, e.1 ≠ [] → q ≠ out ++ e.1) →
      fsLookup (insertTree out fs entries) q = fsLookup fs q := by
  induction entries with
  | nil => intro fs q _; rfl
  | cons e rest ih =>
    intro fs q hq
    obtain ⟨rel, nd⟩ := e
    unfold insertTree
    by_cases hrel : rel = []
    · rw [if_pos hrel]
      exact ih fs q (fun e2 he2 => hq e2 (by simp [he2]))
    · rw [if_neg hrel]
      rw [ih _ q (fun e2 he2 => hq e2 (by simp [he2]))]
      exact fsLookup_fsSet_ne _ _ (hq (rel, nd) (by simp) hrel)

theorem extract_frame (file out : FsPath) (env : Env) (fs : FS) (r : Res Unit) (fs2 : FS)
    (ev : List Event) (q : FsPath) (h : extract file out env fs = (r, fs2, ev))
    (hq : ∀ rel, rel ≠ [] → q ≠ out ++ rel) :
    fsLookup fs2 q = fsLookup fs q := by
  unfold extract at h
  repeat' split at h
  all_goals obtain ⟨_, h2, _⟩ := triple_inj h
  · rw [h2]
    exact insertTree_frame out _ fs q (fun e _ he => hq e.1 he)
  · rw [h2]
  · rw [h2]

theorem removeDirAllM_cases (p : FsPath) (env : Env) (fs : FS) (r : Res Unit) (fs2 : FS)
    (ev : List Event) (h : removeDirAllM p env fs = (r, fs2, ev)) :
    (r = Res.ok () → fs2 = fsDelTree fs p) ∧ (r ≠ Res.ok () → fs2 = fs) := by
  unfold removeDirAllM at h
  repeat' split at h
  · obtain ⟨rfl, rfl, rfl⟩ := triple_inj h
    exact ⟨fun _ => rfl, fun hne => absurd rfl hne⟩
  · obtain ⟨rfl, rfl, rfl⟩ := triple_inj h
    exact ⟨fun hok => Res.noConfusion hok, fun _ => rfl⟩

theorem purgeBody_frame (version : String) (p : FsPath) (env : Env) (fs : FS) (r : Res Unit)
    (fs2 : FS) (ev : List Event) (h : purgeBody version p env fs = (r, fs2, ev)) :
    ∀ q, q ≠ p → fsLookup fs2 q = fsLookup fs q := by
  unfold purgeBody at h
  repeat' split at h
  all_goals obtain ⟨_, rfl, _⟩ := triple_inj h
  all_goals intro q hq
  · rfl
  · exact fsLookup_fsDel_ne _ hq
  · rfl
  · rfl

/-- With the cache root present, a `download` call (any outcome) only
touches the artifact path. -/
theorem download_noop_frame (env : Env) (fs : FS) (version : String) (r : Res FsPath)
    (fs2 : FS) (ev : List Event)
    (hc : fsPathExists fs (cacheDirPathPure env) = true)
    (h : download version env fs = (r, fs2, ev)) :
    (∀ q, q ≠ artifactPathPure env version → fsLookup fs2 q = fsLookup fs q) ∧
    (∀ x, r = Res.ok x → ∀ q, fsPathExists fs q = true → fsPathExists fs2 q = true) := by
  unfold download at h
  rcases hb : downloadBody version (artifactPathPure env version) env fs with ⟨rb, fsb, evb⟩
  have htot : M.bind (path version) (downloadBody version) env fs = (rb, fsb, [] ++ evb) := by
    rw [M.bind_ok (path_noop version hc), hb]
  rw [htot] at h
  obtain ⟨rfl, rfl, rfl⟩ := triple_inj h
  obtain ⟨_, _, _, hmono, _, _, hframe⟩ := downloadBody_cases _ _ _ _ _ _ _ hb
  exact ⟨hframe, hmono⟩

/-- When both the cache root and the active directory exist, `output_dir`
is a pure no-op. -/
theorem output_dir_noop {env : Env} {fs : FS}
    (hc : fsPathExists fs (cacheDirPathPure env) = true)
    (hcur : fsPathExists fs (cacheDirPathPure env ++ ["current"]) = true) :
    output_dir env fs = (Res.ok (cacheDirPathPure env ++ ["current"]), fs, []) := by
  unfold output_dir
  rw [M.bind_ok (cache_dir_noop hc)]
  rw [M.bind_ok (show ensureDirM (cacheDirPathPure env ++ ["current"]) true env fs =
    (Res.ok (), fs, []) by unfold ensureDirM; rw [if_pos hcur])]
  rfl

theorem output_dir_wf (env : Env) (fs : FS)
    (hwf : ∀ q, isPrefixL q (cacheDirPathPure env ++ ["current"]) = true →
      fsLookup fs q = none ∨ fsLookup fs q = some Node.dir) :
    ∃ fs1 ev, output_dir env fs = (Res.ok (cacheDirPathPure env ++ ["current"]), fs1, ev) ∧
      fsLookup fs1 (cacheDirPathPure env) = some Node.dir ∧
      fsLookup fs1 (cacheDirPathPure env ++ ["current"]) = some Node.dir ∧
      (∀ q, isPrefixL q (cacheDirPathPure env ++ ["current"]) = true →
        fsLookup fs1 q = none ∨ fsLookup fs1 q = some Node.dir) := by
  obtain ⟨fsA, evA, hcd, hdirA⟩ := cache_dir_wf env fs
    (fun q hq => hwf q (isPrefixL_extend hq _))
  obtain ⟨_, horA, _, _, _, _⟩ := cache_dir_cases _ _ _ _ _ hcd
  have hwfA : ∀ q, isPrefixL q (cacheDirPathPure env ++ ["current"]) = true →
      fsLookup fsA q = none ∨ fsLookup fsA q = some Node.dir := by
    intro q hq
    rcases horA q with h1 | h1
    · rw [h1]
      exact hwf q hq
    · exact Or.inr h1
  obtain ⟨fsB, evB, heB, hdirB⟩ := ensureDirM_wf (cacheDirPathPure env ++ ["current"]) true
    env fsA (by simp) hwfA
  obtain ⟨_, horB, _, _, _, _⟩ := ensureDirM_cases _ _ _ _ _ _ _ heB
  refine ⟨fsB, evA ++ (evB ++ []), ?_, ?_, hdirB, ?_⟩
  · unfold output_dir
    rw [M.bind_ok hcd, M.bind_ok heB]
    rfl
  · rcases horB (cacheDirPathPure env) with h1 | h1
    · rw [h1]
      exact hdirA
    · exact h1
  · intro q hq
    rcases horB q with h1 | h1
    · rw [h1]
      exact hwfA q hq
    · exact Or.inr h1

theorem current_wf (env : Env) (fs : FS)
    (hwf : ∀ q, isPrefixL q (cacheDirPathPure env ++ ["current"]) = true →
      fsLookup fs q = none ∨ fsLookup fs q = some Node.dir) :
    ∃ r fs1 ev, current env fs = (r, fs1, ev) ∧
      fsLookup fs1 (cacheDirPathPure env) = some Node.dir ∧
      fsLookup fs1 (cacheDirPathPure env ++ ["current"]) = some Node.dir ∧
      (∀ q, isPrefixL q (cacheDirPathPure env ++ ["current"]) = true →
        fsLookup fs1 q = none ∨ fsLookup fs1 q = some Node.dir) := by
  obtain ⟨fs1, ev1, ho, hdc, hdcur, hwf1⟩ := output_dir_wf env fs hwf
  rcases hpr : probe (cacheDirPathPure env ++ ["current"]) env fs1 with ⟨rp, fsp, evp⟩
  obtain ⟨rfl, _⟩ := probe_cases _ _ _ _ _ _ hpr
  refine ⟨rp, fsp, ev1 ++ evp, ?_, hdc, hdcur, hwf1⟩
  unfold current
  rw [M.bind_ok ho, hpr]

theorem shareLoop_frame (dir link : FsPath) (names : List String) (env : Env) :
    ∀ fs r fs2 ev q, shareLoop dir link names env fs = (r, fs2, ev) →
      (∀ e, isPrefixL q (link ++ ["share", e]) = false) →
      (∀ e n, q ≠ link ++ ["share", e, n]) →
      fsLookup fs2 q = fsLookup fs q := by
  induction names with
  | nil =>
    intro fs r fs2 ev q h _ _
    obtain ⟨rfl, rfl, rfl⟩ := triple_inj h
    rfl
  | cons m rest ih =>
    intro fs r fs2 ev q h hp hn
    unfold shareLoop at h
    rcases hs : symlinks (dir ++ ["share", m]) (link ++ ["share", m]) env fs with ⟨rs, fss, evs⟩
    have hstep : fsLookup fss q = fsLookup fs q := by
      refine symlinks_frame _ _ _ _ _ _ _ _ hs ?_ (hp m)
      intro n _ hcon
      exact hn m n (by simpa [List.append_assoc] using hcon)
    cases rs with
    | ok a =>
      cases a
      rcases hrest : shareLoop dir link rest env fss with ⟨rr, fsr, evr⟩
      have hb : M.bind (symlinks (dir ++ ["share", m]) (link ++ ["share", m]))
          (fun _ => shareLoop dir link rest) env fs = (rr, fsr, evs ++ evr) := by
        rw [M.bind_ok hs, hrest]
      rw [hb] at h
      obtain ⟨rfl, rfl, rfl⟩ := triple_inj h
      rw [ih fss _ _ _ q hrest hp hn]
      exact hstep
    | err msg =>
      obtain ⟨rfl, rfl, rfl⟩ := triple_inj ((M.bind_err hs).symm.trans h)
      exact hstep
    | panic =>
      obtain ⟨rfl, rfl, rfl⟩ := triple_inj ((M.bind_panic hs).symm.trans h)
      exact hstep

theorem shareLoop_dir_pres (dir link : FsPath) (names : List String) (env : Env) :
    ∀ fs r fs2 ev X, shareLoop dir link names env fs = (r, fs2, ev) →
      fsLookup fs X = some Node.dir → fsLookup fs2 X = some Node.dir := by
  induction names with
  | nil =>
    intro fs r fs2 ev X h hX
    obtain ⟨rfl, rfl, rfl⟩ := triple_inj h
    exact hX
  | cons m rest ih =>
    intro fs r fs2 ev X h hX
    unfold shareLoop at h
    rcases hs : symlinks (dir ++ ["share", m]) (link ++ ["share", m]) env fs with ⟨rs, fss, evs⟩
    have hstep : fsLookup fss X = some Node.dir :=
      symlinks_dir_pres _ _ _ _ _ _ _ _ hs hX
    cases rs with
    | ok a =>
      cases a
      rcases hrest : shareLoop dir link rest env fss with ⟨rr, fsr, evr⟩
      have hb : M.bind (symlinks (dir ++ ["share", m]) (link ++ ["share", m]))
          (fun _ => shareLoop dir link rest) env fs = (rr, fsr, evs ++ evr) := by
        rw [M.bind_ok hs, hrest]
      rw [hb] at h
      obtain ⟨rfl, rfl, rfl⟩ := triple_inj h
      exact ih fss _ _ _ X hrest hstep
    | err msg =>
      obtain ⟨rfl, rfl, rfl⟩ := triple_inj ((M.bind_err hs).symm.trans h)
      exact hstep
    | panic =>
      obtain ⟨rfl, rfl, rfl⟩ := triple_inj ((M.bind_panic hs).symm.trans h)
      exact hstep

theorem publishAll_frame (version : String) (dir link : FsPath) (env : Env) (fs : FS)
    (r : Res Unit) (fs2 : FS) (ev : List Event) (q : FsPath)
    (h : publishAll version dir link env fs = (r, fs2, ev))
    (hbin : ∀ n, n ∈ fsReadDir fs (dir ++ ["bin"]) → q ≠ (link ++ ["bin"]) ++ [n])
    (hbinp : isPrefixL q (link ++ ["bin"]) = false)
    (hlib : ∀ n, q ≠ (link ++ ["lib"]) ++ [n])
    (hlibp : isPrefixL q (link ++ ["lib"]) = false)
    (hshare : ∀ e n, q ≠ link ++ ["share", e, n])
    (hsharep : ∀ e, isPrefixL q (link ++ ["share", e]) = false) :
    fsLookup fs2 q = fsLookup fs q := by
  unfold publishAll at h
  rcases hs1 : symlinks (dir ++ ["bin"]) (link ++ ["bin"]) env fs with ⟨r1, fsA, ev1⟩
  have hstep1 : fsLookup fsA q = fsLookup fs q :=
    symlinks_frame _ _ _ _ _ _ _ _ hs1 hbin hbinp
  cases r1 with
  | err msg =>
    rw [M.bind_err hs1] at h
    obtain ⟨rfl, rfl, rfl⟩ := triple_inj h
    exact hstep1
  | panic =>
    rw [M.bind_panic hs1] at h
    obtain ⟨rfl, rfl, rfl⟩ := triple_inj h
    exact hstep1
  | ok a =>
    cases a
    rw [M.bind_ok hs1] at h
    rcases hs2 : symlinks (dir ++ ["lib"]) (link ++ ["lib"]) env fsA with ⟨r2, fsB, ev2⟩
    have hstep2 : fsLookup fsB q = fsLookup fsA q :=
      symlinks_frame _ _ _ _ _ _ _ _ hs2 (fun n _ => hlib n) hlibp
    cases r2 with
    | err msg =>
      rw [M.bind_err hs2] at h
      obtain ⟨rfl, rfl, rfl⟩ := triple_inj h
      exact hstep2.trans hstep1
    | panic =>
      rw [M.bind_panic hs2] at h
      obtain ⟨rfl, rfl, rfl⟩ := triple_inj h
      exact hstep2.trans hstep1
    | ok a =>
      cases a
      rw [M.bind_ok hs2] at h
      rcases hrd : readDirM (dir ++ ["share"]) env fsB with ⟨rd, fsC, evd⟩
      obtain ⟨hfsC, _⟩ := readDirM_state _ _ _ _ _ _ hrd
      rw [hfsC] at hrd
      cases rd with
      | err msg =>
        rw [M.bind_err hrd] at h
        obtain ⟨rfl, rfl, rfl⟩ := triple_inj h
        exact hstep2.trans hstep1
      | panic =>
        rw [M.bind_panic hrd] at h
        obtain ⟨rfl, rfl, rfl⟩ := triple_inj h
        exact hstep2.trans hstep1
      | ok names =>
        rw [M.bind_ok hrd] at h
        rcases hsh : shareLoop dir link names env fsB with ⟨r4, fsD, ev4⟩
        have hstep4 : fsLookup fsD q = fsLookup fsB q :=
          shareLoop_frame dir link names env fsB _ _ _ q hsh hsharep hshare
        cases r4 with
        | err msg =>
          rw [M.bind_err hsh] at h
          obtain ⟨rfl, rfl, rfl⟩ := triple_inj h
          exact (hstep4.trans hstep2).trans hstep1
        | panic =>
          rw [M.bind_panic hsh] at h
          obtain ⟨rfl, rfl, rfl⟩ := triple_inj h
          exact (hstep4.trans hstep2).trans hstep1
        | ok a =>
          cases a
          rw [M.bind_ok hsh] at h
          obtain ⟨rfl, rfl, rfl⟩ := triple_inj h
          exact (hstep4.trans hstep2).trans hstep1

theorem publishAll_dir_pres (version : String) (dir link : FsPath) (env : Env) (fs : FS)
    (r : Res Unit) (fs2 : FS) (ev : List Event) (X : FsPath)
    (h : publishAll version dir link env fs = (r, fs2, ev))
    (hX : fsLookup fs X = some Node.dir) :
    fsLookup fs2 X = some Node.dir := by
  unfold publishAll at h
  rcases hs1 : symlinks (dir ++ ["bin"]) (link ++ ["bin"]) env fs with ⟨r1, fsA, ev1⟩
  have hstep1 : fsLookup fsA X = some Node.dir :=
    symlinks_dir_pres _ _ _ _ _ _ _ _ hs1 hX
  cases r1 with
  | err msg =>
    rw [M.bind_err hs1] at h
    obtain ⟨rfl, rfl, rfl⟩ := triple_inj h
    exact hstep1
  | panic =>
    rw [M.bind_panic hs1] at h
    obtain ⟨rfl, rfl, rfl⟩ := triple_inj h
    exact hstep1
  | ok a =>
    cases a
    rw [M.bind_ok hs1] at h
    rcases hs2 : symlinks (dir ++ ["lib"]) (link ++ ["lib"]) env fsA with ⟨r2, fsB, ev2⟩
    have hstep2 : fsLookup fsB X = some Node.dir :=
      symlinks_dir_pres _ _ _ _ _ _ _ _ hs2 hstep1
    cases r2 with
    | err msg =>
      rw [M.bind_err hs2] at h
      obtain ⟨rfl, rfl, rfl⟩ := triple_inj h
      exact hstep2
    | panic =>
      rw [M.bind_panic hs2] at h
      obtain ⟨rfl, rfl, rfl⟩ := triple_inj h
      exact hstep2
    | ok a =>
      cases a
      rw [M.bind_ok hs2] at h
      rcases hrd : readDirM (dir ++ ["share"]) env fsB with ⟨rd, fsC, evd⟩
      obtain ⟨hfsC, _⟩ := readDirM_state _ _ _ _ _ _ hrd
      rw [hfsC] at hrd
      cases rd with
      | err msg =>
        rw [M.bind_err hrd] at h
        obtain ⟨rfl, rfl, rfl⟩ := triple_inj h
        exact hstep2
      | panic =>
        rw [M.bind_panic hrd] at h
        obtain ⟨rfl, rfl, rfl⟩ := triple_inj h
        exact hstep2
      | ok names =>
        rw [M.bind_ok hrd] at h
        rcases hsh : shareLoop dir link names env fsB with ⟨r4, fsD, ev4⟩
        have hstep4 : fsLookup fsD X = some Node.dir :=
          shareLoop_dir_pres dir link names env fsB _ _ _ X hsh hstep2
        cases r4 with
        | err msg =>
          rw [M.bind_err hsh] at h
          obtain ⟨rfl, rfl, rfl⟩ := triple_inj h
          exact hstep4
        | panic =>
          rw [M.bind_panic hsh] at h
          obtain ⟨rfl, rfl, rfl⟩ := triple_inj h
          exact hstep4
        | ok a =>
          cases a
          rw [M.bind_ok hsh] at h
          obtain ⟨rfl, rfl, rfl⟩ := triple_inj h
          exact hstep4

theorem checkedRemove_cases (out : FsPath) (env : Env) (fs : FS) (r : Res Unit) (fs2 : FS)
    (ev : List Event) (h : checkedRemove out env fs = (r, fs2, ev)) :
    (r = Res.ok () → fs2 = fsDelTree fs out) ∧ (r ≠ Res.ok () → fs2 = fs) := by
  unfold checkedRemove at h
  rcases hrm : removeDirAllM out env fs with ⟨rr, fsr, evr⟩
  obtain ⟨hok, hne⟩ := removeDirAllM_cases _ _ _ _ _ _ hrm
  cases rr with
  | ok a =>
    cases a
    rw [M.bind_ok (attempt_ok hrm)] at h
    obtain ⟨rfl, rfl, rfl⟩ := triple_inj h
    exact ⟨fun _ => hok rfl, fun hcon => absurd rfl hcon⟩
  | err msg =>
    rw [M.bind_ok (attempt_err hrm)] at h
    obtain ⟨rfl, rfl, rfl⟩ := triple_inj h
    exact ⟨fun hcon => Res.noConfusion hcon, fun _ => hne (fun hcon => Res.noConfusion hcon)⟩
  | panic =>
    rw [M.bind_panic (attempt_panic hrm)] at h
    obtain ⟨rfl, rfl, rfl⟩ := triple_inj h
    exact ⟨fun hcon => Res.noConfusion hcon, fun _ => hne (fun hcon => Res.noConfusion hcon)⟩

theorem checkedExtract_frame (p out : FsPath) (env : Env) (fs : FS) (r : Res Unit) (fs2 : FS)
    (ev : List Event) (q : FsPath) (h : checkedExtract p out env fs = (r, fs2, ev))
    (hq : ∀ rel, rel ≠ [] → q ≠ out ++ rel) :
    fsLookup fs2 q = fsLookup fs q := by
  unfold checkedExtract at h
  rcases hx : extract p out env fs with ⟨rx, fsx, evx⟩
  have hfr : fsLookup fsx q = fsLookup fs q := extract_frame _ _ _ _ _ _ _ _ hx hq
  cases rx with
  | ok a =>
    cases a
    rw [M.bind_ok (attempt_ok hx)] at h
    obtain ⟨rfl, rfl, rfl⟩ := triple_inj h
    exact hfr
  | err msg =>
    rw [M.bind_ok (attempt_err hx)] at h
    obtain ⟨rfl, rfl, rfl⟩ := triple_inj h
    exact hfr
  | panic =>
    rw [M.bind_panic (attempt_panic hx)] at h
    obtain ⟨rfl, rfl, rfl⟩ := triple_inj h
    exact hfr

theorem ensureDownloaded_cases (env : Env) (fs : FS) (version : String) (r : Res Unit)
    (fs2 : FS) (ev : List Event)
    (hc : fsPathExists fs (cacheDirPathPure env) = true)
    (h : ensureDownloaded version env fs = (r, fs2, ev)) :
    (∀ q, q ≠ artifactPathPure env version → fsLookup fs2 q = fsLookup fs q) ∧
    (r = Res.ok () → ∀ q, fsPathExists fs q = true → fsPathExists fs2 q = true) := by
  unfold ensureDownloaded at h
  rcases hd : download version env fs with ⟨rd, fsd, evd⟩
  obtain ⟨hdfr, hdmono⟩ := download_noop_frame env fs version _ _ _ hc hd
  cases rd with
  | ok pth =>
    rw [M.bind_ok (attempt_ok hd)] at h
    obtain ⟨rfl, rfl, rfl⟩ := triple_inj h
    exact ⟨hdfr, fun _ => hdmono pth rfl⟩
  | err msg =>
    rw [M.bind_ok (attempt_err hd)] at h
    obtain ⟨rfl, rfl, rfl⟩ := triple_inj h
    exact ⟨hdfr, fun hcon => Res.noConfusion hcon⟩
  | panic =>
    rw [M.bind_panic (attempt_panic hd)] at h
    obtain ⟨rfl, rfl, rfl⟩ := triple_inj h
    exact ⟨hdfr, fun hcon => Res.noConfusion hcon⟩

theorem download_frame_any (env : Env) (fs : FS) (version : String) (r : Res FsPath)
    (fs2 : FS) (ev : List Event) (q : FsPath)
    (h : download version env fs = (r, fs2, ev))
    (hq1 : isPrefixL q (cacheDirPathPure env) = false)
    (hq2 : q ≠ artifactPathPure env version) :
    fsLookup fs2 q = fsLookup fs q := by
  unfold download at h
  rcases hp : path version env fs with ⟨rp, fsp, evp⟩
  obtain ⟨hres, _, hfrp, _, _, _⟩ := path_cases _ _ _ _ _ _ hp
  rcases hres with rfl | rfl
  · rcases hb : downloadBody version (artifactPathPure env version) env fsp with ⟨rb, fsb, evb⟩
    rw [M.bind_ok hp, hb] at h
    obtain ⟨rfl, rfl, rfl⟩ := triple_inj h
    obtain ⟨_, _, _, _, _, _, hframe⟩ := downloadBody_cases _ _ _ _ _ _ _ hb
    exact (hframe q hq2).trans (hfrp q hq1)
  · rw [M.bind_panic hp] at h
    obtain ⟨rfl, rfl, rfl⟩ := triple_inj h
    exact hfrp q hq1

theorem ensureDownloaded_frame_any (env : Env) (fs : FS) (version : String) (r : Res Unit)
    (fs2 : FS) (ev : List Event) (q : FsPath)
    (h : ensureDownloaded version env fs = (r, fs2, ev))
    (hq1 : isPrefixL q (cacheDirPathPure env) = false)
    (hq2 : q ≠ artifactPathPure env version) :
    fsLookup fs2 q = fsLookup fs q := by
  unfold ensureDownloaded at h
  rcases hd : download version env fs with ⟨rd, fsd, evd⟩
  have hfr : fsLookup fsd q = fsLookup fs q :=
    download_frame_any _ _ _ _ _ _ _ hd hq1 hq2
  cases rd with
  | ok pth =>
    rw [M.bind_ok (attempt_ok hd)] at h
    obtain ⟨rfl, rfl, rfl⟩ := triple_inj h
    exact hfr
  | err msg =>
    rw [M.bind_ok (attempt_err hd)] at h
    obtain ⟨rfl, rfl, rfl⟩ := triple_inj h
    exact hfr
  | panic =>
    rw [M.bind_panic (attempt_panic hd)] at h
    obtain ⟨rfl, rfl, rfl⟩ := triple_inj h
    exact hfr

/-- The frame part of C7, over the main branch of `switch`: with the
standard environment, a successful `switchMain` leaves any entry of the
publish root's `bin` whose name does not occur in the newly extracted
tree's `bin` untouched. -/
theorem switchMain_c7 (env : Env) (fs : FS) (version qname : String) (fsm : FS)
    (evm : List Event)
    (hxdg : env.xdgCacheHome = some ["cache"])
    (hhome : env.home = ["home"])
    (hmain : switchMain version env fs = (Res.ok (), fsm, evm))
    (hq : qname ∉ fsReadDir fsm
      ["cache", "nvim_switcher", "current", "nvim-linux64", "bin"]) :
    fsLookup fsm ["home", ".local", "bin", qname] =
      fsLookup fs ["home", ".local", "bin", qname] := by
  have hcp : cacheDirPathPure env = ["cache", "nvim_switcher"] := by
    simp [cacheDirPathPure, hxdg]
  have hB : isPrefixL ["home", ".local", "bin", qname] (cacheDirPathPure env) = false := by
    rw [hcp]; rfl
  have hA : isPrefixL ["home", ".local", "bin", qname]
      (cacheDirPathPure env ++ ["current"]) = false := by
    rw [hcp]; rfl
  have hC : ["home", ".local", "bin", qname] ≠ artifactPathPure env version := by
    unfold artifactPathPure
    rw [hcp]
    simp
  have hD : isPrefixL (cacheDirPathPure env ++ ["current"])
      ["home", ".local", "bin", qname] = false := by
    rw [hcp]; rfl
  have hE : ∀ rel, rel ≠ [] →
      ["home", ".local", "bin", qname] ≠ (cacheDirPathPure env ++ ["current"]) ++ rel := by
    rw [hcp]
    intro rel _ hcon
    simp at hcon
  unfold switchMain at hmain
  rw [M.bind_ok (show mprint ("Switching to version " ++ version) env fs =
    (Res.ok (), fs, [Event.print ("Switching to version " ++ version)]) from rfl)] at hmain
  rcases hp : path version env fs with ⟨rp, fsP, evP⟩
  obtain ⟨hres, _, hfrP, _, _, _⟩ := path_cases _ _ _ _ _ _ hp
  rcases hres with rfl | rfl
  case inr =>
    rw [M.bind_panic hp] at hmain
    obtain ⟨hcon, _, _⟩ := triple_inj hmain
    exact Res.noConfusion hcon
  case inl =>
  rw [M.bind_ok hp] at hmain
  rw [M.bind_ok (show existsM (artifactPathPure env version) env fsP =
    (Res.ok (fsPathExists fsP (artifactPathPure env version)), fsP, []) from rfl)] at hmain
  rcases hdl : (if fsPathExists fsP (artifactPathPure env version) = true then mret ()
      else ensureDownloaded version) env fsP with ⟨rdl, fsD, evD⟩
  have hfrD : fsLookup fsD ["home", ".local", "bin", qname] =
      fsLookup fsP ["home", ".local", "bin", qname] := by
    by_cases hpex : fsPathExists fsP (artifactPathPure env version) = true
    · rw [if_pos hpex] at hdl
      obtain ⟨_, h2, _⟩ := triple_inj
        (show ((Res.ok () : Res Unit), fsP, ([] : List Event)) = (rdl, fsD, evD) from hdl)
      rw [h2]
    · rw [if_neg hpex] at hdl
      exact ensureDownloaded_frame_any _ _ _ _ _ _ _ hdl hB hC
  cases rdl with
  | err msg =>
    rw [M.bind_err hdl] at hmain
    obtain ⟨hcon, _, _⟩ := triple_inj hmain
    exact Res.noConfusion hcon
  | panic =>
    rw [M.bind_panic hdl] at hmain
    obtain ⟨hcon, _, _⟩ := triple_inj hmain
    exact Res.noConfusion hcon
  | ok a =>
  cases a
  rw [M.bind_ok hdl] at hmain
  rcases ho1 : output_dir env fsD with ⟨ro1, fsO1, evO1⟩
  obtain ⟨hreso1, _, hfro1, _, _, _⟩ := output_dir_cases _ _ _ _ _ ho1
  rcases hreso1 with rfl | rfl
  case inr =>
    rw [M.bind_panic ho1] at hmain
    obtain ⟨hcon, _, _⟩ := triple_inj hmain
    exact Res.noConfusion hcon
  case inl =>
  rw [M.bind_ok ho1] at hmain
  rcases hcr : checkedRemove (cacheDirPathPure env ++ ["current"]) env fsO1
    with ⟨rcr, fsE, evE⟩
  obtain ⟨hcrok, hcrne⟩ := checkedRemove_cases _ _ _ _ _ _ hcr
  have hfrE : fsLookup fsE ["home", ".local", "bin", qname] =
      fsLookup fsO1 ["home", ".local", "bin", qname] := by
    by_cases hok : rcr = Res.ok ()
    · rw [hcrok hok, fsLookup_fsDelTree]
      rw [hD]
      simp
    · rw [hcrne hok]
  cases rcr with
  | err msg =>
    rw [M.bind_err hcr] at hmain
    obtain ⟨hcon, _, _⟩ := triple_inj hmain
    exact Res.noConfusion hcon
  | panic =>
    rw [M.bind_panic hcr] at hmain
    obtain ⟨hcon, _, _⟩ := triple_inj hmain
    exact Res.noConfusion hcon
  | ok a =>
  cases a
  rw [M.bind_ok hcr] at hmain
  rcases ho2 : output_dir env fsE with ⟨ro2, fsF, evF⟩
  obtain ⟨hreso2, _, hfro2, _, _, _⟩ := output_dir_cases _ _ _ _ _ ho2
  rcases hreso2 with rfl | rfl
  case inr =>
    rw [M.bind_panic ho2] at hmain
    obtain ⟨hcon, _, _⟩ := triple_inj hmain
    exact Res.noConfusion hcon
  case inl =>
  rw [M.bind_ok ho2] at hmain
  rcases hce : checkedExtract (artifactPathPure env version)
      (cacheDirPathPure env ++ ["current"]) env fsF with ⟨rce, fsG0, evG0⟩
  have hfrG0 : fsLookup fsG0 ["home", ".local", "bin", qname] =
      fsLookup fsF ["home", ".local", "bin", qname] :=
    checkedExtract_frame _ _ _ _ _ _ _ _ hce hE
  cases rce with
  | err msg =>
    rw [M.bind_err hce] at hmain
    obtain ⟨hcon, _, _⟩ := triple_inj hmain
    exact Res.noConfusion hcon
  | panic =>
    rw [M.bind_panic hce] at hmain
    obtain ⟨hcon, _, _⟩ := triple_inj hmain
    exact Res.noConfusion hcon
  | ok a =>
  cases a
  rw [M.bind_ok hce] at hmain
  rw [M.bind_ok (show getHome env fsG0 = (Res.ok env.home, fsG0, []) from rfl)] at hmain
  rcases ho3 : output_dir env fsG0 with ⟨ro3, fsG, evG⟩
  obtain ⟨hreso3, _, hfro3, _, _, _⟩ := output_dir_cases _ _ _ _ _ ho3
  rcases hreso3 with rfl | rfl
  case inr =>
    rw [M.bind_panic ho3] at hmain
    obtain ⟨hcon, _, _⟩ := triple_inj hmain
    exact Res.noConfusion hcon
  case inl =>
  rw [M.bind_ok ho3] at hmain
  rw [hhome] at hmain
  rcases hpub : publishAll version ((cacheDirPathPure env ++ ["current"]) ++ ["nvim-linux64"])
      (["home"] ++ [".local"]) env fsG with ⟨rp2, fsH, evH⟩
  rw [hpub] at hmain
  obtain ⟨_, hfsm, _⟩ := triple_inj hmain
  subst hfsm
  -- trace the archive's bin entry names through the publish phase
  have hq1fr : fsLookup fsm
      ["cache", "nvim_switcher", "current", "nvim-linux64", "bin", qname] =
      fsLookup fsG
      ["cache", "nvim_switcher", "current", "nvim-linux64", "bin", qname] := by
    refine publishAll_frame _ _ _ _ _ _ _ _ _ hpub ?_ ?_ ?_ ?_ ?_ ?_
    · intro n _ hcon
      simp at hcon
    · rfl
    · intro n hcon
      simp at hcon
    · rfl
    · intro e n hcon
      simp at hcon
    · intro e
      rfl
  have hnames : ∀ n, n ∈ fsReadDir fsG
      (((cacheDirPathPure env ++ ["current"]) ++ ["nvim-linux64"]) ++ ["bin"]) → n ≠ qname := by
    intro n hn hcon
    rw [hcon] at hn
    rw [hcp, mem_fsReadDir_iff] at hn
    apply hq
    rw [mem_fsReadDir_iff]
    show (fsLookup fsm
      ["cache", "nvim_switcher", "current", "nvim-linux64", "bin", qname]).isSome = true
    rw [hq1fr]
    exact hn
  have hfrH : fsLookup fsm ["home", ".local", "bin", qname] =
      fsLookup fsG ["home", ".local", "bin", qname] := by
    refine publishAll_frame _ _ _ _ _ _ _ _ _ hpub ?_ ?_ ?_ ?_ ?_ ?_
    · intro n hn hcon
      have := hnames n hn
      simp at hcon
      exact this hcon.symm
    · rfl
    · intro n hcon
      simp at hcon
    · rfl
    · intro e n hcon
      simp at hcon
    · intro e
      rfl
  rw [hfrH, hfro3 _ hA, hfrG0, hfro2 _ hA, hfrE, hfro1 _ hA, hfrD, hfrP _ hB]

/-- C7: the claim as stated is false. In `fs7` the pre-switch
active-directory `bin` subtree is empty, so the publish-root file
`bin/x` matches no entry of the active source subtree before the
switch; yet after a successful `switch "v1"` that file is gone,
replaced by a symlink, because the NEWLY extracted tree's `bin` happens
to contain an entry named `x`. The code compares against the new tree,
not the pre-switch one. -/
theorem C7_counterexample :
    (switch "v1" env7 fs7).1 = Res.ok () ∧
    fsReadDir fs7 ["cache", "nvim_switcher", "current", "nvim-linux64", "bin"] = [] ∧
    fsLookup fs7 ["home", ".local", "bin", "x"] = some (Node.file [9]) ∧
    fsLookup (switch "v1" env7 fs7).2.1 ["home", ".local", "bin", "x"] ≠
      some (Node.file [9]) := by
  decide

/-- C7 (amended): publishing preserves unrelated pre-existing content,
where "unrelated" means the name does not occur in the NEWLY extracted
tree's `bin` directory (rather than the pre-switch active subtree): for
the standard environment, after a successful `switch version`, every
entry of the publish root's `bin` whose name is not among the entries of
`<cache>/nvim_switcher/current/nvim-linux64/bin` in the resulting state
is exactly as it was before the switch. -/
theorem C7_publish_preserves_unrelated_amended (env : Env) (fs : FS)
    (version qname : String) (fs2 : FS) (ev : List Event)
    (hxdg : env.xdgCacheHome = some ["cache"])
    (hhome : env.home = ["home"])
    (h : switch version env fs = (Res.ok (), fs2, ev))
    (hq : qname ∉ fsReadDir fs2
      ["cache", "nvim_switcher", "current", "nvim-linux64", "bin"]) :
    fsLookup fs2 ["home", ".local", "bin", qname] =
      fsLookup fs ["home", ".local", "bin", qname] := by
  have hcp : cacheDirPathPure env = ["cache", "nvim_switcher"] := by
    simp [cacheDirPathPure, hxdg]
  have hA0 : isPrefixL ["home", ".local", "bin", qname]
      (cacheDirPathPure env ++ ["current"]) = false := by
    rw [hcp]; rfl
  unfold switch at h
  rcases hc : current env fs with ⟨rc, fsc, evc⟩
  obtain ⟨_, hfrc, _, _, _⟩ := current_cases _ _ _ _ _ hc
  cases rc with
  | err msg =>
    rw [M.bind_err hc] at h
    obtain ⟨hcon, _, _⟩ := triple_inj h
    exact Res.noConfusion hcon
  | panic =>
    rw [M.bind_panic hc] at h
    obtain ⟨hcon, _, _⟩ := triple_inj h
    exact Res.noConfusion hcon
  | ok cur =>
    rw [M.bind_ok hc] at h
    rcases hk : (if version = cur then mprint ("Already using version " ++ version)
        else switchMain version) env fsc with ⟨rk, fsk, evk⟩
    rw [hk] at h
    obtain ⟨hrk, hfs2, _⟩ := triple_inj
      (show (rk, fsk, evc ++ evk) = (Res.ok (), fs2, ev) from h)
    by_cases hv : version = cur
    · rw [if_pos hv] at hk
      obtain ⟨_, hfsk, _⟩ := triple_inj
        (show ((Res.ok () : Res Unit), fsc,
          [Event.print ("Already using version " ++ version)]) = (rk, fsk, evk) from hk)
      rw [hfs2, hfsk]
      exact hfrc _ hA0
    · rw [if_neg hv, ← hrk] at hk
      have hqk : qname ∉ fsReadDir fsk
          ["cache", "nvim_switcher", "current", "nvim-linux64", "bin"] := by
        rw [← hfs2]; exact hq
      have hmain := switchMain_c7 env fsc version qname fsk evk hxdg hhome hk hqk
      rw [hfs2, hmain]
      exact hfrc _ hA0

theorem C7_witness :
    switch "v1" env7 fs7 =
      (Res.ok (), (switch "v1" env7 fs7).2.1, (switch "v1" env7 fs7).2.2) ∧
    "y" ∉ fsReadDir (switch "v1" env7 fs7).2.1
      ["cache", "nvim_switcher", "current", "nvim-linux64", "bin"] ∧
    fsLookup ((switch "v1" env7 fs7).2.1) ["home", ".local", "bin", "y"] =
      fsLookup fs7 ["home", ".local", "bin", "y"] :=
  ⟨by decide, by decide,
   C7_publish_preserves_unrelated_amended env7 fs7 "v1" "y"
     ((switch "v1" env7 fs7).2.1) ((switch "v1" env7 fs7).2.2)
     (by decide) (by decide) (by decide) (by decide)⟩

theorem prefix_ne_extend {q p rel : FsPath} (hq : isPrefixL q p = true) (hrel : rel ≠ []) :
    q ≠ p ++ rel := by
  intro hcon
  have hlq := isPrefixL_length hq
  rw [hcon, List.length_append] at hlq
  cases rel with
  | nil => exact hrel rfl
  | cons a l =>
    have hx : (a :: l).length = l.length + 1 := rfl
    omega

theorem prefix_ne_artifact (env : Env) (version : String) (q : FsPath)
    (hq : isPrefixL q (cacheDirPathPure env ++ ["current"]) = true) :
    q ≠ artifactPathPure env version := by
  intro hcon
  subst hcon
  unfold artifactPathPure at hq
  rw [isPrefixL_append_left] at hq
  have hs : ("nvim-" ++ version ++ ".tar.gz") = "current" := by
    simpa [isPrefixL] using hq
  have hlen := congrArg String.length hs
  rw [String.length_append, String.length_append] at hlen
  have h5 : "nvim-".length = 5 := rfl
  have h7 : ".tar.gz".length = 7 := rfl
  have hc7 : "current".length = 7 := rfl
  rw [h5, h7, hc7] at hlen
  omega

theorem c_ne_artifact (env : Env) (version : String) :
    cacheDirPathPure env ≠ artifactPathPure env version := by
  intro hcon
  have hlen := congrArg List.length hcon
  simp [artifactPathPure] at hlen

theorem path_wf (env : Env) (fs : FS) (version : String)
    (hwf : ∀ q, isPrefixL q (cacheDirPathPure env) = true →
      fsLookup fs q = none ∨ fsLookup fs q = some Node.dir) :
    ∃ fs1 ev, path version env fs = (Res.ok (artifactPathPure env version), fs1, ev) ∧
      fsLookup fs1 (cacheDirPathPure env) = some Node.dir := by
  obtain ⟨fs1, ev, hcd, hd⟩ := cache_dir_wf env fs hwf
  refine ⟨fs1, ev, ?_, hd⟩
  unfold path
  rw [M.bind_ok hcd]
  simp [mret, artifactPathPure]

theorem download_pres (env : Env) (fs : FS) (version : String) (r : Res FsPath)
    (fs2 : FS) (ev : List Event) (h : download version env fs = (r, fs2, ev)) :
    ∀ q, isPrefixL q (cacheDirPathPure env ++ ["current"]) = true →
      fsLookup fs2 q = fsLookup fs q ∨ fsLookup fs2 q = some Node.dir := by
  unfold download at h
  rcases hp : path version env fs with ⟨rp, fsp, evp⟩
  obtain ⟨hres, hor, _, _, _, _⟩ := path_cases _ _ _ _ _ _ hp
  rcases hres with rfl | rfl
  · rcases hb : downloadBody version (artifactPathPure env version) env fsp with ⟨rb, fsb, evb⟩
    rw [M.bind_ok hp, hb] at h
    obtain ⟨_, hfs, _⟩ := triple_inj h
    obtain ⟨_, _, _, _, _, _, hframe⟩ := downloadBody_cases _ _ _ _ _ _ _ hb
    intro q hq
    rw [hfs]
    show fsLookup fsb q = fsLookup fs q ∨ fsLookup fsb q = some Node.dir
    rw [hframe q (prefix_ne_artifact env version q hq)]
    exact hor q
  · rw [M.bind_panic hp] at h
    obtain ⟨_, hfs, _⟩ := triple_inj h
    intro q _
    rw [hfs]
    exact hor q

theorem ensureDownloaded_pres (env : Env) (fs : FS) (version : String) (r : Res Unit)
    (fs2 : FS) (ev : List Event) (h : ensureDownloaded version env fs = (r, fs2, ev)) :
    ∀ q, isPrefixL q (cacheDirPathPure env ++ ["current"]) = true →
      fsLookup fs2 q = fsLookup fs q ∨ fsLookup fs2 q = some Node.dir := by
  unfold ensureDownloaded at h
  rcases hd : download version env fs with ⟨rd, fsd, evd⟩
  have hpres := download_pres env fs version rd fsd evd hd
  cases rd with
  | ok pth =>
    rw [M.bind_ok (attempt_ok hd)] at h
    obtain ⟨rfl, rfl, rfl⟩ := triple_inj h
    exact hpres
  | err msg =>
    rw [M.bind_ok (attempt_err hd)] at h
    obtain ⟨rfl, rfl, rfl⟩ := triple_inj h
    exact hpres
  | panic =>
    rw [M.bind_panic (attempt_panic hd)] at h
    obtain ⟨rfl, rfl, rfl⟩ := triple_inj h
    exact hpres

theorem switchMain_c10 (env : Env) (fs : FS) (version : String) (r : Res Unit)
    (fsm : FS) (evm : List Event)
    (hwf : ∀ q, isPrefixL q (cacheDirPathPure env ++ ["current"]) = true →
      fsLookup fs q = none ∨ fsLookup fs q = some Node.dir)
    (hd1 : fsLookup fs (cacheDirPathPure env) = some Node.dir)
    (hd2 : fsLookup fs (cacheDirPathPure env ++ ["current"]) = some Node.dir)
    (h : switchMain version env fs = (r, fsm, evm)) :
    fsLookup fsm (cacheDirPathPure env) = some Node.dir ∧
    fsLookup fsm (cacheDirPathPure env ++ ["current"]) = some Node.dir := by
  unfold switchMain at h
  rw [M.bind_ok (show mprint ("Switching to version " ++ version) env fs =
    (Res.ok (), fs, [Event.print ("Switching to version " ++ version)]) from rfl)] at h
  rcases hp : path version env fs with ⟨rp, fsP, evP⟩
  obtain ⟨hres, horP, _, _, _, _⟩ := path_cases _ _ _ _ _ _ hp
  have hd1P : fsLookup fsP (cacheDirPathPure env) = some Node.dir := by
    rcases horP (cacheDirPathPure env) with he | hdq
    · rw [he]; exact hd1
    · exact hdq
  have hd2P : fsLookup fsP (cacheDirPathPure env ++ ["current"]) = some Node.dir := by
    rcases horP (cacheDirPathPure env ++ ["current"]) with he | hdq
    · rw [he]; exact hd2
    · exact hdq
  have hwfP : ∀ q, isPrefixL q (cacheDirPathPure env ++ ["current"]) = true →
      fsLookup fsP q = none ∨ fsLookup fsP q = some Node.dir := by
    intro q hq
    rcases horP q with he | hdq
    · rw [he]; exact hwf q hq
    · exact Or.inr hdq
  rcases hres with rfl | rfl
  case inr =>
    rw [M.bind_panic hp] at h
    obtain ⟨_, hfs, _⟩ := triple_inj h
    rw [hfs]
    exact ⟨hd1P, hd2P⟩
  case inl =>
  rw [M.bind_ok hp] at h
  rw [M.bind_ok (show existsM (artifactPathPure env version) env fsP =
    (Res.ok (fsPathExists fsP (artifactPathPure env version)), fsP, []) from rfl)] at h
  rcases hdl : (if fsPathExists fsP (artifactPathPure env version) = true then mret ()
      else ensureDownloaded version) env fsP with ⟨rdl, fsD, evD⟩
  have horD : ∀ q, isPrefixL q (cacheDirPathPure env ++ ["current"]) = true →
      fsLookup fsD q = fsLookup fsP q ∨ fsLookup fsD q = some Node.dir := by
    by_cases hpex : fsPathExists fsP (artifactPathPure env version) = true
    · rw [if_pos hpex] at hdl
      obtain ⟨_, h2, _⟩ := triple_inj
        (show ((Res.ok () : Res Unit), fsP, ([] : List Event)) = (rdl, fsD, evD) from hdl)
      intro q _
      rw [h2]
      exact Or.inl rfl
    · rw [if_neg hpex] at hdl
      exact ensureDownloaded_pres _ _ _ _ _ _ hdl
  have hd1D : fsLookup fsD (cacheDirPathPure env) = some Node.dir := by
    rcases horD (cacheDirPathPure env) (isPrefixL_append _ _) with he | hdq
    · rw [he]; exact hd1P
    · exact hdq
  have hd2D : fsLookup fsD (cacheDirPathPure env ++ ["current"]) = some Node.dir := by
    rcases horD (cacheDirPathPure env ++ ["current"]) (isPrefixL_refl _) with he | hdq
    · rw [he]; exact hd2P
    · exact hdq
  have hwfD : ∀ q, isPrefixL q (cacheDirPathPure env ++ ["current"]) = true →
      fsLookup fsD q = none ∨ fsLookup fsD q = some Node.dir := by
    intro q hq
    rcases horD q hq with he | hdq
    · rw [he]; exact hwfP q hq
    · exact Or.inr hdq
  cases rdl with
  | err msg =>
    rw [M.bind_err hdl] at h
    obtain ⟨_, hfs, _⟩ := triple_inj h
    rw [hfs]
    exact ⟨hd1D, hd2D⟩
  | panic =>
    rw [M.bind_panic hdl] at h
    obtain ⟨_, hfs, _⟩ := triple_inj h
    rw [hfs]
    exact ⟨hd1D, hd2D⟩
  | ok a =>
  cases a
  rw [M.bind_ok hdl] at h
  rcases ho1 : output_dir env fsD with ⟨ro1, fsO1, evO1⟩
  obtain ⟨hreso1, horO1, _, _, _, _⟩ := output_dir_cases _ _ _ _ _ ho1
  have hd1O1 : fsLookup fsO1 (cacheDirPathPure env) = some Node.dir := by
    rcases horO1 (cacheDirPathPure env) with he | hdq
    · rw [he]; exact hd1D
    · exact hdq
  have hd2O1 : fsLookup fsO1 (cacheDirPathPure env ++ ["current"]) = some Node.dir := by
    rcases horO1 (cacheDirPathPure env ++ ["current"]) with he | hdq
    · rw [he]; exact hd2D
    · exact hdq
  have hwfO1 : ∀ q, isPrefixL q (cacheDirPathPure env ++ ["current"]) = true →
      fsLookup fsO1 q = none ∨ fsLookup fsO1 q = some Node.dir := by
    intro q hq
    rcases horO1 q with he | hdq
    · rw [he]; exact hwfD q hq
    · exact Or.inr hdq
  rcases hreso1 with rfl | rfl
  case inr =>
    rw [M.bind_panic ho1] at h
    obtain ⟨_, hfs, _⟩ := triple_inj h
    rw [hfs]
    exact ⟨hd1O1, hd2O1⟩
  case inl =>
  rw [M.bind_ok ho1] at h
  rcases hcr : checkedRemove (cacheDirPathPure env ++ ["current"]) env fsO1
    with ⟨rcr, fsE, evE⟩
  obtain ⟨hcrok, hcrne⟩ := checkedRemove_cases _ _ _ _ _ _ hcr
  cases rcr with
  | err msg =>
    rw [M.bind_err hcr] at h
    obtain ⟨_, hfs, _⟩ := triple_inj h
    rw [hfs, hcrne (fun hcon => Res.noConfusion hcon)]
    exact ⟨hd1O1, hd2O1⟩
  | panic =>
    rw [M.bind_panic hcr] at h
    obtain ⟨_, hfs, _⟩ := triple_inj h
    rw [hfs, hcrne (fun hcon => Res.noConfusion hcon)]
    exact ⟨hd1O1, hd2O1⟩
  | ok a =>
  cases a
  rw [M.bind_ok hcr] at h
  have hfsE : fsE = fsDelTree fsO1 (cacheDirPathPure env ++ ["current"]) := hcrok rfl
  have hpf : isPrefixL (cacheDirPathPure env ++ ["current"]) (cacheDirPathPure env) = false :=
    isPrefixL_false_of_length (by simp)
  have hwfE : ∀ q, isPrefixL q (cacheDirPathPure env ++ ["current"]) = true →
      fsLookup fsE q = none ∨ fsLookup fsE q = some Node.dir := by
    intro q hq
    rw [hfsE, fsLookup_fsDelTree]
    by_cases hpc : isPrefixL (cacheDirPathPure env ++ ["current"]) q = true
    · rw [if_pos hpc]
      exact Or.inl rfl
    · rw [if_neg hpc]
      exact hwfO1 q hq
  obtain ⟨fsX, evX, ho2eq, hd1X, hd2X, hwfX⟩ := output_dir_wf env fsE hwfE
  rw [M.bind_ok ho2eq] at h
  rcases hce : checkedExtract (artifactPathPure env version)
      (cacheDirPathPure env ++ ["current"]) env fsX with ⟨rce, fsG0, evG0⟩
  have hfr1 : fsLookup fsG0 (cacheDirPathPure env) =
      fsLookup fsX (cacheDirPathPure env) :=
    checkedExtract_frame _ _ _ _ _ _ _ _ hce
      (fun rel hrel => prefix_ne_extend (isPrefixL_append _ _) hrel)
  have hfr2 : fsLookup fsG0 (cacheDirPathPure env ++ ["current"]) =
      fsLookup fsX (cacheDirPathPure env ++ ["current"]) :=
    checkedExtract_frame _ _ _ _ _ _ _ _ hce
      (fun rel hrel => prefix_ne_extend (isPrefixL_refl _) hrel)
  have hd1G : fsLookup fsG0 (cacheDirPathPure env) = some Node.dir := hfr1.trans hd1X
  have hd2G : fsLookup fsG0 (cacheDirPathPure env ++ ["current"]) = some Node.dir :=
    hfr2.trans hd2X
  cases rce with
  | err msg =>
    rw [M.bind_err hce] at h
    obtain ⟨_, hfs, _⟩ := triple_inj h
    rw [hfs]
    exact ⟨hd1G, hd2G⟩
  | panic =>
    rw [M.bind_panic hce] at h
    obtain ⟨_, hfs, _⟩ := triple_inj h
    rw [hfs]
    exact ⟨hd1G, hd2G⟩
  | ok a =>
  cases a
  rw [M.bind_ok hce] at h
  rw [M.bind_ok (show getHome env fsG0 = (Res.ok env.home, fsG0, []) from rfl)] at h
  rcases ho3 : output_dir env fsG0 with ⟨ro3, fsG, evG⟩
  obtain ⟨hreso3, horO3, _, _, _, _⟩ := output_dir_cases _ _ _ _ _ ho3
  have hd1G2 : fsLookup fsG (cacheDirPathPure env) = some Node.dir := by
    rcases horO3 (cacheDirPathPure env) with he | hdq
    · rw [he]; exact hd1G
    · exact hdq
  have hd2G2 : fsLookup fsG (cacheDirPathPure env ++ ["current"]) = some Node.dir := by
    rcases horO3 (cacheDirPathPure env ++ ["current"]) with he | hdq
    · rw [he]; exact hd2G
    · exact hdq
  rcases hreso3 with rfl | rfl
  case inr =>
    rw [M.bind_panic ho3] at h
    obtain ⟨_, hfs, _⟩ := triple_inj h
    rw [hfs]
    exact ⟨hd1G2, hd2G2⟩
  case inl =>
  rw [M.bind_ok ho3] at h
  rcases hpub : publishAll version ((cacheDirPathPure env ++ ["current"]) ++ ["nvim-linux64"])
      (env.home ++ [".local"]) env fsG with ⟨rp2, fsH, evH⟩
  rw [hpub] at h
  obtain ⟨_, hfs, _⟩ := triple_inj h
  rw [hfs]
  exact ⟨publishAll_dir_pres _ _ _ _ _ _ _ _ _ hpub hd1G2,
    publishAll_dir_pres _ _ _ _ _ _ _ _ _ hpub hd2G2⟩

/-- C10: the claim as stated is false. The on-demand creation is guarded
by `Path::exists`, which is also true of a non-directory entry: a regular
file sitting AT `<cache>/nvim_switcher` passes the check in `cache_dir`,
so `create_dir_all` is never called and `purge`/`download` complete
without a panic (with errors) while the cache root is not a directory;
likewise a regular file AT `<cache>/nvim_switcher/current` passes the
check in `output_dir`, so `current` completes successfully (returning
the sentinel) and `switch` completes with an error, neither panicking,
while the active directory is not a directory. -/
theorem C10_counterexample :
    ((purge "v1" env0 fsFileRoot).1 ≠ Res.panic ∧
      fsLookup (purge "v1" env0 fsFileRoot).2.1 ["cache", "nvim_switcher"] =
        some (Node.file [0])) ∧
    ((download "v1" env0 fsFileRoot).1 ≠ Res.panic ∧
      fsLookup (download "v1" env0 fsFileRoot).2.1 ["cache", "nvim_switcher"] =
        some (Node.file [0])) ∧
    ((current env0 fsFileCur).1 = Res.ok "None" ∧
      fsLookup (current env0 fsFileCur).2.1 ["cache", "nvim_switcher", "current"] =
        some (Node.file [0])) ∧
    ((switch "v1" env0 fsFileCur).1 ≠ Res.panic ∧
      fsLookup (switch "v1" env0 fsFileCur).2.1 ["cache", "nvim_switcher", "current"] =
        some (Node.file [0])) := by
  decide

/-- C10 (amended): every public operation establishes the directory
invariant PROVIDED no non-directory entry already occupies a prefix of
`<cache>/nvim_switcher/current` (each such prefix is either absent or a
directory). The guard is `Path::exists`, so an existing non-directory
at those locations is silently accepted and left in place
(`C10_counterexample`); under the proviso, after `download`, `purge`,
`current` or `switch` completes without a panic the cache root
`<cache>/nvim_switcher` exists as a directory, and after `current` or
`switch` the active directory `<cache>/nvim_switcher/current` exists as
a directory as well, created on demand if absent. -/
theorem C10_directory_invariant (env : Env) (fs : FS) (version : String)
    (hwf : ∀ q, isPrefixL q (cacheDirPathPure env ++ ["current"]) = true →
      fsLookup fs q = none ∨ fsLookup fs q = some Node.dir) :
    (∀ r fs1 ev, download version env fs = (r, fs1, ev) → r ≠ Res.panic →
      fsLookup fs1 (cacheDirPathPure env) = some Node.dir) ∧
    (∀ r fs1 ev, purge version env fs = (r, fs1, ev) → r ≠ Res.panic →
      fsLookup fs1 (cacheDirPathPure env) = some Node.dir) ∧
    (∀ r fs1 ev, current env fs = (r, fs1, ev) → r ≠ Res.panic →
      fsLookup fs1 (cacheDirPathPure env) = some Node.dir ∧
      fsLookup fs1 (cacheDirPathPure env ++ ["current"]) = some Node.dir) ∧
    (∀ r fs1 ev, switch version env fs = (r, fs1, ev) → r ≠ Res.panic →
      fsLookup fs1 (cacheDirPathPure env) = some Node.dir ∧
      fsLookup fs1 (cacheDirPathPure env ++ ["current"]) = some Node.dir) := by
  have hwfc : ∀ q, isPrefixL q (cacheDirPathPure env) = true →
      fsLookup fs q = none ∨ fsLookup fs q = some Node.dir :=
    fun q hq => hwf q (isPrefixL_extend hq _)
  refine ⟨?_, ?_, ?_, ?_⟩
  · intro r fs1 ev h _
    obtain ⟨fsA, evA, hp, hd⟩ := path_wf env fs version hwfc
    unfold download at h
    rcases hb : downloadBody version (artifactPathPure env version) env fsA
      with ⟨rb, fsB, evB⟩
    rw [M.bind_ok hp, hb] at h
    obtain ⟨_, hfs, _⟩ := triple_inj h
    obtain ⟨_, _, _, _, _, _, hframe⟩ := downloadBody_cases _ _ _ _ _ _ _ hb
    rw [hfs]
    show fsLookup fsB (cacheDirPathPure env) = some Node.dir
    rw [hframe _ (c_ne_artifact env version)]
    exact hd
  · intro r fs1 ev h _
    obtain ⟨fsA, evA, hp, hd⟩ := path_wf env fs version hwfc
    unfold purge at h
    rcases hb : purgeBody version (artifactPathPure env version) env fsA
      with ⟨rb, fsB, evB⟩
    rw [M.bind_ok hp, hb] at h
    obtain ⟨_, hfs, _⟩ := triple_inj h
    rw [hfs]
    show fsLookup fsB (cacheDirPathPure env) = some Node.dir
    rw [purgeBody_frame _ _ _ _ _ _ _ hb _ (c_ne_artifact env version)]
    exact hd
  · intro r fs1 ev h _
    obtain ⟨rc, fsc, evc, hcur, hd1c, hd2c, _⟩ := current_wf env fs hwf
    obtain ⟨_, hfs, _⟩ := triple_inj (h.symm.trans hcur)
    rw [hfs] at hd1c hd2c
    exact ⟨hd1c, hd2c⟩
  · intro r fs1 ev h _
    obtain ⟨rc, fsc, evc, hcur, hd1c, hd2c, hwfc2⟩ := current_wf env fs hwf
    unfold switch at h
    cases rc with
    | err msg =>
      rw [M.bind_err hcur] at h
      obtain ⟨_, hfs, _⟩ := triple_inj h
      rw [hfs]
      exact ⟨hd1c, hd2c⟩
    | panic =>
      rw [M.bind_panic hcur] at h
      obtain ⟨_, hfs, _⟩ := triple_inj h
      rw [hfs]
      exact ⟨hd1c, hd2c⟩
    | ok cur =>
      rw [M.bind_ok hcur] at h
      rcases hk : (if version = cur then mprint ("Already using version " ++ version)
          else switchMain version) env fsc with ⟨rk, fsk, evk⟩
      rw [hk] at h
      obtain ⟨_, hfs, _⟩ := triple_inj
        (show (rk, fsk, evc ++ evk) = (r, fs1, ev) from h)
      by_cases hv : version = cur
      · rw [if_pos hv] at hk
        obtain ⟨_, hfsk, _⟩ := triple_inj
          (show ((Res.ok () : Res Unit), fsc,
            [Event.print ("Already using version " ++ version)]) = (rk, fsk, evk) from hk)
        rw [hfs, hfsk]
        exact ⟨hd1c, hd2c⟩
      · rw [if_neg hv] at hk
        have hmain := switchMain_c10 env fsc version rk fsk evk hwfc2 hd1c hd2c hk
        rw [hfs]
        exact hmain

theorem C10_witness :
    (download "v1" env0 []).1 ≠ Res.panic ∧
    (purge "v1" env0 []).1 ≠ Res.panic ∧
    (current env0 []).1 ≠ Res.panic ∧
    (switch "v1" env0 []).1 ≠ Res.panic ∧
    fsLookup (download "v1" env0 []).2.1 ["cache", "nvim_switcher"] = some Node.dir ∧
    fsLookup (purge "v1" env0 []).2.1 ["cache", "nvim_switcher"] = some Node.dir ∧
    fsLookup (current env0 []).2.1 ["cache", "nvim_switcher"] = some Node.dir ∧
    fsLookup (current env0 []).2.1 ["cache", "nvim_switcher", "current"] = some Node.dir ∧
    fsLookup (switch "v1" env0 []).2.1 ["cache", "nvim_switcher"] = some Node.dir ∧
    fsLookup (switch "v1" env0 []).2.1 ["cache", "nvim_switcher", "current"] = some Node.dir := by
  obtain ⟨hD, hP, hC, hS⟩ :=
    C10_directory_invariant env0 [] "v1" (fun q _ => Or.inl rfl)
  have hd := hD _ _ _ rfl (by decide)
  have hp := hP _ _ _ rfl (by decide)
  have hc := hC _ _ _ rfl (by decide)
  have hs := hS _ _ _ rfl (by decide)
  exact ⟨by decide, by decide, by decide, by decide, hd, hp, hc.1, hc.2, hs.1, hs.2⟩
